import Mathlib

/-!
# Lattice A* planner (`src/navigation/planner.cc`): embedding and verified properties

The planner of `planner.cc` is embedded as explicit state passing over a record
`Planner S` holding the member variables of the C++ class.

Modelling conventions.

* Scalars (`float` in the source) are the elements of a linearly ordered field `S`:
  arithmetic is exact and the order is total, so rounding and NaN are outside the model.
  What is proved of the values of cost sums in this model (consistency of the heuristic,
  cheapest routes) is proved of exact arithmetic and marked so.  The two scoring methods
  are embedded a second time with binary32 rounding (`GetCost_binary32`,
  `GetHeuristic_binary32`) for the statements about their values under rounding.
* The numeric library the source calls (`Eigen` vector norm, `geometry::MinDistanceLineLine`)
  and the tuning constants of the headers (`GRID_SIZE`, `CAR_WIDTH_SAFE`, `STOP_DIST`,
  `CIRCLE_RADIUS`) are not part of the sources; they are the fields of an environment
  record `Env S` and every general theorem holds for all of them.
* `size_t` is `Nat`, with the wrap-around of `path_start_idx - 1` written out modulo `2 ^ 64`.
* `unordered_set` / `unordered_map` with exact point equality are a list of keys and an
  association list; only membership and lookup are ever observed by the source.
* Loops whose termination is not structural take a fuel argument; running out of fuel,
  a throwing `parents.at` and an out-of-range `path_[k]` are results of their own (`Fault`).
* The visualization message is the list of primitives appended to it; the external
  drawing routines `DrawLine` and `DrawCross` each append one primitive.
* The frontier `SimpleQueue` of `simple_queue.h` is not part of the sources and is
  modelled from the specification: one entry per location, a push replaces an entry only
  when strictly cheaper, a pop returns an entry of least priority.
-/

namespace planner

/-! ## Data model -/

/-- A 2D point or displacement (`Eigen::Vector2f`). -/
structure Vector2f (S : Type) where
  x : S
  y : S
deriving DecidableEq, Repr

instance instAddVector2f {S : Type} [Add S] : Add (Vector2f S) :=
  ⟨fun a b => ⟨a.x + b.x, a.y + b.y⟩⟩

instance instSubVector2f {S : Type} [Sub S] : Sub (Vector2f S) :=
  ⟨fun a b => ⟨a.x - b.x, a.y - b.y⟩⟩

/-- An obstacle segment (`geometry::line2f`): its two end points. -/
structure line2f (S : Type) where
  p0 : Vector2f S
  p1 : Vector2f S
deriving DecidableEq, Repr

/-- The obstacle map (`vector_map::VectorMap`): only its `lines` are read. -/
structure VectorMap (S : Type) where
  lines : List (line2f S)
deriving DecidableEq, Repr

/-- The constants of the planner headers and the numeric routines of the external
libraries, none of which is defined in `planner.cc`. -/
structure Env (S : Type) where
  GRID_SIZE : S
  CAR_WIDTH_SAFE : S
  STOP_DIST : S
  CIRCLE_RADIUS : S
  norm : Vector2f S → S
  MinDistanceLineLine : Vector2f S → Vector2f S → Vector2f S → Vector2f S → S

/-- The member variables of `class Planner`. -/
structure Planner (S : Type) where
  global_goal_mloc_ : Vector2f S
  global_goal_mangle_ : S
  global_goal_set_ : Bool
  lattices_ : List (Vector2f S)
  path_start_idx : Nat
  path_ : List (Vector2f S)
  map_ : VectorMap S
deriving DecidableEq, Repr

/-- A search node (`struct SearchState`): a location and the accumulated cost. -/
structure SearchState (S : Type) where
  curr_loc : Vector2f S
  cost : S
deriving DecidableEq, Repr

/-- Ways a call can fail to return normally.  `out_of_fuel` belongs to the model only (the
loop was cut off); `out_of_range` is the exception of `parents.at` on a missing key and
`bad_index` is a `path_[k]` read with `k` outside the vector, both with the planner state
the call leaves behind; `uninitialised` is a read of `current` before any assignment. -/
inductive Fault (S : Type) where
  | out_of_fuel : Fault S
  | out_of_range : Planner S → Fault S
  | bad_index : Planner S → Fault S
  | uninitialised : Fault S
deriving DecidableEq, Repr

variable {S : Type} [LinearOrderedField S]

/-! ## Constructor and setters -/

/-- The eight lattice offsets in the order the constructor lists them. -/
def lattices (E : Env S) : List (Vector2f S) :=
  [⟨E.GRID_SIZE, 0⟩, ⟨-E.GRID_SIZE, 0⟩,
   ⟨0, E.GRID_SIZE⟩, ⟨0, -E.GRID_SIZE⟩,
   ⟨E.GRID_SIZE, E.GRID_SIZE⟩, ⟨-E.GRID_SIZE, -E.GRID_SIZE⟩,
   ⟨E.GRID_SIZE, -E.GRID_SIZE⟩, ⟨-E.GRID_SIZE, E.GRID_SIZE⟩]

set_option linter.dupNamespace false in
/-- The state `Planner::Planner()` builds (the map starts without lines). -/
def Planner.Planner (E : Env S) : Planner S :=
  { global_goal_mloc_ := ⟨0, 0⟩
    global_goal_mangle_ := 0
    global_goal_set_ := false
    lattices_ := lattices E
    path_start_idx := 0
    path_ := []
    map_ := ⟨[]⟩ }

/-- The read-only view `Planner::GetPath`. -/
def GetPath (pl : Planner S) : List (Vector2f S) := pl.path_

/-- The setter `Planner::SetGlobalGoal`. -/
def SetGlobalGoal (pl : Planner S) (loc : Vector2f S) (angle : S) : Planner S :=
  { pl with global_goal_mloc_ := loc, global_goal_mangle_ := angle, global_goal_set_ := true }

/-! ## Scoring -/

/-- Accumulated cost `Planner::GetCost_`.  The sum is the exact one of the scalar field;
`GetCost_binary32` below is the same method with the sum rounded as `float` rounds it. -/
def GetCost_ (E : Env S) (loc prev_loc : Vector2f S) (prev_cost : S) : S :=
  prev_cost + E.norm (prev_loc - loc)

/-- Heuristic `Planner::GetHeuristic_`. -/
def GetHeuristic_ (E : Env S) (pl : Planner S) (loc : Vector2f S) : S :=
  E.norm (pl.global_goal_mloc_ - loc)

/-! ## Scoring with the arithmetic of `float`

The two scoring methods once more, over the rationals, with every sum and difference
rounded to the nearest binary32 number as the `float` operations of the source round
them.  The statements about the values of costs under rounding are made of these.
-/

/-- The inner loop of `Neighbors_` over `map_.lines`: the value `distance` holds when the
loop is left, either by the `break` on the first line within the clearance or at the end
of the lines.  The second argument is the value of `distance` on entry. -/
def lastDistance (E : Env S) (loc next : Vector2f S) : List (line2f S) → S → S
  | [], distance => distance
  | map_line :: rest, _ =>
    let distance := E.MinDistanceLineLine map_line.p0 map_line.p1 loc next
    if distance ≤ E.CAR_WIDTH_SAFE / 2 then distance else lastDistance E loc next rest distance

/-- The outer loop of `Neighbors_` over the lattice offsets still to be tried; `neighbors`
is the output vector so far. -/
def neighborsLoop (E : Env S) (pl : Planner S) (loc : Vector2f S) :
    List (Vector2f S) → List (Vector2f S) → List (Vector2f S)
  | [], neighbors => neighbors
  | lattice :: rest, neighbors =>
    let next := loc + lattice
    let distance := lastDistance E loc next pl.map_.lines 0
    if E.CAR_WIDTH_SAFE / 2 < distance then neighborsLoop E pl loc rest (neighbors ++ [next])
    else neighborsLoop E pl loc rest neighbors

/-- The method `Planner::Neighbors_`: the output vector after the call, given the vector
`neighbors` passed in. -/
def Neighbors_ (E : Env S) (pl : Planner S) (loc : Vector2f S)
    (neighbors : List (Vector2f S)) : List (Vector2f S) :=
  neighborsLoop E pl loc pl.lattices_ neighbors

/-- The neighbor list as the specification words it: the lattice offsets in declaration
order, kept when no obstacle line comes within half the clearance of the travel segment,
mapped to their destinations. -/
def NeighborsSpec (E : Env S) (pl : Planner S) (loc : Vector2f S) : List (Vector2f S) :=
  (pl.lattices_.filter (fun o => pl.map_.lines.all (fun l =>
    decide (E.CAR_WIDTH_SAFE / 2 < E.MinDistanceLineLine l.p0 l.p1 loc (loc + o))))).map
    (fun o => loc + o)

/-! ## Goal test -/

/-- The query `Planner::AtGoal`.  The source body assigns no member, so the embedding is
a function of the state that returns no new state. -/
def AtGoal (E : Env S) (pl : Planner S) (robot_mloc : Vector2f S) : Bool :=
  if !pl.global_goal_set_ then true
  else decide (E.norm (robot_mloc - pl.global_goal_mloc_) < E.STOP_DIST)

/-! ## Frontier -/

/-- Modelled from the spec: the frontier container `SimpleQueue` of `simple_queue.h`, which
is not among the sources.  It holds at most one entry per location, each a search node
with its priority. -/
structure SimpleQueue (S : Type) where
  values_ : List (SearchState S × S)
deriving DecidableEq, Repr

/-- Modelled from the spec: `SimpleQueue::Empty`, absent from the sources. -/
def SimpleQueue.Empty (q : SimpleQueue S) : Bool := q.values_.isEmpty

/-- Modelled from the spec: the entry list after `SimpleQueue::Push` (absent from the
sources) and whether the push was accepted.  A location not yet queued is added; a queued
location has its entry replaced only when the new priority is strictly lower, and the push
is refused otherwise. -/
def pushEntries (v : SearchState S) (p : S) :
    List (SearchState S × S) → List (SearchState S × S) × Bool
  | [] => ([(v, p)], true)
  | e :: rest =>
    if e.1.curr_loc = v.curr_loc then
      if p < e.2 then ((v, p) :: rest, true) else (e :: rest, false)
    else ((e :: (pushEntries v p rest).1), (pushEntries v p rest).2)

/-- Modelled from the spec: `SimpleQueue::Push` with update-if-better semantics, absent
from the sources. -/
def SimpleQueue.Push (q : SimpleQueue S) (v : SearchState S) (p : S) : SimpleQueue S × Bool :=
  (⟨(pushEntries v p q.values_).1⟩, (pushEntries v p q.values_).2)

/-- Modelled from the spec: the entry `SimpleQueue::Pop` (absent from the sources) selects,
one of minimum priority; among equal priorities the one queued first. -/
def minEntry : SearchState S × S → List (SearchState S × S) → SearchState S × S
  | best, [] => best
  | best, e :: rest => if e.2 < best.2 then minEntry e rest else minEntry best rest

/-- Modelled from the spec: `SimpleQueue::Pop` (pop-minimum), absent from the sources.
`none` stands for a pop on an empty queue, which the search loop never performs. -/
def SimpleQueue.Pop (q : SimpleQueue S) : Option (SearchState S × SimpleQueue S) :=
  match q.values_ with
  | [] => none
  | e :: rest => some ((minEntry e rest).1, ⟨(e :: rest).erase (minEntry e rest)⟩)

/-! ## Visited set and parent map -/

/-- The lookup `parents.at(k)` of the parent map; `none` is the throwing case. -/
def parentsAt : List (Vector2f S × Vector2f S) → Vector2f S → Option (Vector2f S)
  | [], _ => none
  | e :: rest, k => if e.1 = k then some e.2 else parentsAt rest k

/-- The update `parents.insert_or_assign(k, v)`. -/
def insert_or_assign :
    List (Vector2f S × Vector2f S) → Vector2f S → Vector2f S → List (Vector2f S × Vector2f S)
  | [], k, v => [(k, v)]
  | e :: rest, k, v => if e.1 = k then (k, v) :: rest else e :: insert_or_assign rest k v

/-! ## Global search -/

/-- The local variables of `GetGlobalPlan` that live across iterations of the search loop.
`current` is `none` while the C++ variable is still uninitialised. -/
structure SearchVars (S : Type) where
  frontier : SimpleQueue S
  visited : List (Vector2f S)
  parents : List (Vector2f S × Vector2f S)
  current : Option (Vector2f S)
deriving DecidableEq, Repr

/-- The `for` loop over `neighbors` in the body of the search loop: it threads the frontier
and the parent map. -/
def expandLoop (E : Env S) (pl : Planner S) (current : Vector2f S) (curr_cost : S)
    (visited : List (Vector2f S)) :
    List (Vector2f S) → SimpleQueue S × List (Vector2f S × Vector2f S) →
      SimpleQueue S × List (Vector2f S × Vector2f S)
  | [], acc => acc
  | next :: rest, acc =>
    if next ∈ visited then expandLoop E pl current curr_cost visited rest acc
    else
      let cost := GetCost_ E next current curr_cost
      let heuristic := GetHeuristic_ E pl next
      let pushed := acc.1.Push ⟨next, cost⟩ (cost + heuristic)
      if pushed.2 then
        expandLoop E pl current curr_cost visited rest
          (pushed.1, insert_or_assign acc.2 next current)
      else expandLoop E pl current curr_cost visited rest (pushed.1, acc.2)

/-- The search loop `while (!frontier.Empty())` of `GetGlobalPlan`; `none` when the fuel
runs out before the loop is left. -/
def searchLoop (E : Env S) (pl : Planner S) : Nat → SearchVars S → Option (SearchVars S)
  | 0, _ => none
  | fuel + 1, st =>
    if st.frontier.Empty then some st
    else
      match st.frontier.Pop with
      | none => some st
      | some (curr_state, frontier) =>
        let current := curr_state.curr_loc
        let visited := st.visited.insert current
        let curr_cost := curr_state.cost
        if AtGoal E pl current then
          some { frontier := frontier, visited := visited, parents := st.parents,
                 current := some current }
        else
          let grown := expandLoop E pl current curr_cost visited (Neighbors_ E pl current [])
            (frontier, st.parents)
          searchLoop E pl fuel
            { frontier := grown.1, visited := visited, parents := grown.2,
              current := some current }

/-- The reconstruction loop `while (current != start_state.curr_loc)`; `path` is `path_`
so far.  The three results are: fuel ran out, `parents.at` threw (with the path built so
far), the loop was left. -/
def walkBack (start : Vector2f S) (parents : List (Vector2f S × Vector2f S)) :
    Nat → Vector2f S → List (Vector2f S) → Option (Except (List (Vector2f S)) (List (Vector2f S)))
  | 0, _, _ => none
  | fuel + 1, current, path =>
    if current ≠ start then
      match parentsAt parents current with
      | none => some (.error path)
      | some parent => walkBack start parents fuel parent (parent :: path)
    else some (.ok path)

/-- The state of the search loop on entry: the start node pushed with priority zero, the
visited set and the parent map empty. -/
def initialVars (robot_mloc : Vector2f S) : SearchVars S :=
  { frontier := ((⟨[]⟩ : SimpleQueue S).Push ⟨robot_mloc, 0⟩ 0).1
    visited := []
    parents := []
    current := none }

/-- The method `Planner::GetGlobalPlan`.  Each of its two loops may take `fuel` steps. -/
def GetGlobalPlan (E : Env S) (fuel : Nat) (pl : Planner S) (robot_mloc : Vector2f S)
    (_robot_mangle : S) : Except (Fault S) (Planner S) :=
  if !pl.global_goal_set_ then .ok pl
  else
    match searchLoop E pl fuel (initialVars robot_mloc) with
    | none => .error .out_of_fuel
    | some st =>
      match st.current with
      | none => .error .uninitialised
      | some current =>
        if !AtGoal E pl current then .ok { pl with path_ := [] }
        else
          match walkBack robot_mloc st.parents fuel current [current] with
          | none => .error .out_of_fuel
          | some (.error path) => .error (.out_of_range { pl with path_ := path })
          | some (.ok path) => .ok { pl with path_ := path }

/-! ## Local goal -/

/-- The scan `while (i < path_.size() && (path_[i] - robot_mloc).norm() < CIRCLE_RADIUS) ++i`
over the waypoints from index `i` on (`rest` is `path_` without its first `i` elements):
the value of `i` when the loop is left. -/
def scanLoop (E : Env S) (robot_mloc : Vector2f S) : List (Vector2f S) → Nat → Nat
  | [], i => i
  | w :: rest, i =>
    if E.norm (w - robot_mloc) < E.CIRCLE_RADIUS then scanLoop E robot_mloc rest (i + 1) else i

/-- The scan loop of `GetLocalGoal` started at index `i` of `path`. -/
def scan (E : Env S) (robot_mloc : Vector2f S) (path : List (Vector2f S)) (i : Nat) : Nat :=
  scanLoop E robot_mloc (path.drop i) i

/-- The last two statements of `GetLocalGoal`: store `i` in the cursor and read
`path_[path_start_idx - 1]`, the subtraction being the one of `size_t`. -/
def returnLocalGoal (pl : Planner S) (i : Nat) : Except (Fault S) (Vector2f S × Planner S) :=
  match pl.path_[(i + 2 ^ 64 - 1) % 2 ^ 64]? with
  | some target => .ok (target, { pl with path_start_idx := i })
  | none => .error (.bad_index { pl with path_start_idx := i })

/-- The method `Planner::GetLocalGoal`: the returned target and the state afterwards. -/
def GetLocalGoal (E : Env S) (fuel : Nat) (pl : Planner S) (robot_mloc : Vector2f S)
    (robot_mangle : S) : Except (Fault S) (Vector2f S × Planner S) :=
  if !pl.global_goal_set_ then .ok (robot_mloc, pl)
  else
    let i := scan E robot_mloc pl.path_ pl.path_start_idx
    if i = pl.path_start_idx then
      match GetGlobalPlan E fuel pl robot_mloc robot_mangle with
      | .error f => .error f
      | .ok replanned =>
        let reset := { replanned with path_start_idx := 0 }
        returnLocalGoal reset (scan E robot_mloc reset.path_ i)
    else returnLocalGoal pl i

/-- The local goal tracker with the replanning branch as the specification words it:
after the fresh search the cursor is reset and the forward scan is repeated from index
zero of the new Path.  Everything else is as in `GetLocalGoal`. -/
def GetLocalGoalSpec (E : Env S) (fuel : Nat) (pl : Planner S) (robot_mloc : Vector2f S)
    (robot_mangle : S) : Except (Fault S) (Vector2f S × Planner S) :=
  if !pl.global_goal_set_ then .ok (robot_mloc, pl)
  else
    let i := scan E robot_mloc pl.path_ pl.path_start_idx
    if i = pl.path_start_idx then
      match GetGlobalPlan E fuel pl robot_mloc robot_mangle with
      | .error f => .error f
      | .ok replanned =>
        let reset := { replanned with path_start_idx := 0 }
        returnLocalGoal reset (scan E robot_mloc reset.path_ 0)
    else returnLocalGoal pl i

/-! ## Visualization -/

/-- What the external drawing routines append to the visualization message: `DrawLine`
a line between two points, `DrawCross` a cross at a location, each with its color. -/
inductive Primitive (S : Type) where
  | line : Vector2f S → Vector2f S → Nat → Primitive S
  | cross : Vector2f S → S → Nat → Primitive S
deriving DecidableEq, Repr

/-- The loop `for (size_t i = 0; i < path_.size() - 1; ++i)` of `VisualizePath`, with the
number of iterations still to run as first argument and `i` as second: each iteration
reads `path_[i]` and `path_[i+1]` and appends a black line.  `none` is a read outside
the vector. -/
def drawLoop (path : List (Vector2f S)) :
    Nat → Nat → List (Primitive S) → Option (List (Primitive S))
  | 0, _, global_viz_msg => some global_viz_msg
  | remaining + 1, i, global_viz_msg =>
    match path[i]?, path[i + 1]? with
    | some p0, some p1 =>
      drawLoop path remaining (i + 1) (global_viz_msg ++ [Primitive.line p0 p1 0x000000])
    | _, _ => none

/-- The method `Planner::VisualizePath`: the message after the call.  The loop bound
`path_.size() - 1` is the subtraction of `size_t`, modulo `2 ^ 64`. -/
def VisualizePath (pl : Planner S) (global_viz_msg : List (Primitive S)) :
    Except (Fault S) (List (Primitive S)) :=
  if !pl.global_goal_set_ then .ok global_viz_msg
  else
    match drawLoop pl.path_ ((pl.path_.length + 2 ^ 64 - 1) % 2 ^ 64) 0 global_viz_msg with
    | none => .error (.bad_index pl)
    | some drawn => .ok (drawn ++ [Primitive.cross pl.global_goal_mloc_ (3 / 10) 0xFF0000])

/-- The visualization as the specification words it: nothing without a goal; otherwise
one line per consecutive pair of Path points, in order, then one marker at the goal. -/
def VisualizeSpec (pl : Planner S) (global_viz_msg : List (Primitive S)) : List (Primitive S) :=
  if !pl.global_goal_set_ then global_viz_msg
  else
    global_viz_msg ++
      List.zipWith (fun p0 p1 => Primitive.line p0 p1 0x000000) pl.path_ pl.path_.tail ++
      [Primitive.cross pl.global_goal_mloc_ (3 / 10) 0xFF0000]

deriving instance DecidableEq for Except

/-! ## A concrete environment over the rationals

The general theorems below hold for every environment.  To run the planner on concrete
inputs the external numeric routines need executable stand-ins over `ℚ`: the sup norm
for `norm` and the sup-norm distance of bounding boxes for `MinDistanceLineLine`.  They
agree with the Euclidean notions on vectors along one axis and on travel segments facing
an axis-parallel wall that spans them, and the maps below are made of such walls.

Two environments are used.  `envQ` takes the sup norm, which obeys the laws of a vector
norm exactly; the concrete runs in it that show the code departing from a claim take the
norm of vectors along the x axis only.  `envR` takes the Euclidean norm rounded down to
six decimals, so that a search in it ranks the candidates as the Euclidean norm does;
the concrete runs that involve a search off one axis are made in it.
-/

/-- Distance between the intervals `[alo, ahi]` and `[blo, bhi]` of a line. -/
def gap (alo ahi blo bhi : ℚ) : ℚ := max 0 (max (blo - ahi) (alo - bhi))

/-- Stand-in for `MinDistanceLineLine`: sup-norm distance of the two bounding boxes. -/
def boxDistance (a0 a1 b0 b1 : Vector2f ℚ) : ℚ :=
  max (gap (min a0.x a1.x) (max a0.x a1.x) (min b0.x b1.x) (max b0.x b1.x))
      (gap (min a0.y a1.y) (max a0.y a1.y) (min b0.y b1.y) (max b0.y b1.y))

/-- Stand-in for the vector norm: the sup norm. -/
def supNorm (v : Vector2f ℚ) : ℚ := max |v.x| |v.y|

/-- A concrete environment: grid step 1/4, safe width 1/2, stop distance 1/2, lookahead
radius 7/8. -/
def envQ : Env ℚ :=
  { GRID_SIZE := 1 / 4
    CAR_WIDTH_SAFE := 1 / 2
    STOP_DIST := 1 / 2
    CIRCLE_RADIUS := 7 / 8
    norm := supNorm
    MinDistanceLineLine := boxDistance }

/-- Integer square root by bisection: the search for the largest `r` between `lo` and
`hi` with `r * r ≤ n`, cut off after the given number of steps. -/
def isqrtLoop (n : Nat) : Nat → Nat → Nat → Nat
  | 0, lo, _ => lo
  | steps + 1, lo, hi =>
    if lo < hi then
      if ((lo + hi + 1) / 2) * ((lo + hi + 1) / 2) ≤ n then
        isqrtLoop n steps ((lo + hi + 1) / 2) hi
      else isqrtLoop n steps lo ((lo + hi + 1) / 2 - 1)
    else lo

/-- Integer square root: the largest `r` with `r * r ≤ n`. -/
def isqrt (n : Nat) : Nat := isqrtLoop n (n + 1) 0 n

/-- Stand-in for the vector norm that follows the Euclidean norm to six decimals:
`sqrt (x * x + y * y)` rounded down to a multiple of `10 ^ (-6)`. -/
def euclidMicro (v : Vector2f ℚ) : ℚ :=
  mkRat (Int.ofNat (isqrt (((v.x * v.x + v.y * v.y).num.toNat * 10 ^ 12) /
    (v.x * v.x + v.y * v.y).den))) (10 ^ 6)

/-- The concrete environment `envQ` with the norm replaced by the Euclidean norm to six
decimals: searches run in it rank the diagonal steps as the Euclidean norm does. -/
def envR : Env ℚ := { envQ with norm := euclidMicro }

/-- A map with one long wall along `y = 5`. -/
def wallMap : VectorMap ℚ := ⟨[⟨⟨-10, 5⟩, ⟨10, 5⟩⟩]⟩

/-- A closed square ring of four walls at distance 11/20 around the origin. -/
def ringMap : VectorMap ℚ :=
  ⟨[⟨⟨-11 / 20, 11 / 20⟩, ⟨11 / 20, 11 / 20⟩⟩, ⟨⟨-11 / 20, -11 / 20⟩, ⟨11 / 20, -11 / 20⟩⟩,
    ⟨⟨-11 / 20, -11 / 20⟩, ⟨-11 / 20, 11 / 20⟩⟩, ⟨⟨11 / 20, -11 / 20⟩, ⟨11 / 20, 11 / 20⟩⟩]⟩

/-- A freshly constructed planner given a map and a goal. -/
def plannerWith (m : VectorMap ℚ) (goal : Vector2f ℚ) : Planner ℚ :=
  { SetGlobalGoal (Planner.Planner envQ) goal 0 with map_ := m }

/-- The five-waypoint scenario: the path `GetGlobalPlan` builds beside the wall from
`(1/2, 0)` towards the goal `(7/4, 0)`, with the cursor at its start.  Seen from
`(1/2, 0)` the first four waypoints are within the lookahead radius and the fifth is not. -/
def scenarioPlanner : Planner ℚ :=
  { plannerWith wallMap ⟨7 / 4, 0⟩ with
    path_ := [⟨1 / 2, 0⟩, ⟨3 / 4, 0⟩, ⟨1, 0⟩, ⟨5 / 4, 0⟩, ⟨3 / 2, 0⟩] }

/-- A second five-waypoint state: the path `GetGlobalPlan` builds beside the wall from
`(1/4, 0)` towards the goal `(3/2, 0)`.  Seen from `(1/8, 0)` the fourth waypoint lies at
exactly the lookahead radius 7/8 and the fifth beyond it. -/
def boundaryPlanner : Planner ℚ :=
  { plannerWith wallMap ⟨3 / 2, 0⟩ with
    path_ := [⟨1 / 4, 0⟩, ⟨1 / 2, 0⟩, ⟨3 / 4, 0⟩, ⟨1, 0⟩, ⟨5 / 4, 0⟩] }

/-- A planner enclosed by the ring, aiming at a goal outside of it, with a path left
over from earlier. -/
def ringPlanner : Planner ℚ :=
  { plannerWith ringMap ⟨2, 0⟩ with path_ := [⟨0, 0⟩, ⟨1 / 4, 0⟩] }

/-- The nine locations inside the ring that the lattice reaches from the origin. -/
def ringCells : List (Vector2f ℚ) :=
  [⟨0, 0⟩, ⟨1 / 4, 0⟩, ⟨-1 / 4, 0⟩, ⟨0, 1 / 4⟩, ⟨0, -1 / 4⟩,
   ⟨1 / 4, 1 / 4⟩, ⟨-1 / 4, -1 / 4⟩, ⟨1 / 4, -1 / 4⟩, ⟨-1 / 4, 1 / 4⟩]

/-- The planner beside the wall with the goal `(7/4, 0)`, before any call. -/
def walledPlanner : Planner ℚ := plannerWith wallMap ⟨7 / 4, 0⟩

/-- The seven waypoints from the origin towards the goal `(7/4, 0)`. -/
def route7 : List (Vector2f ℚ) :=
  [⟨0, 0⟩, ⟨1 / 4, 0⟩, ⟨1 / 2, 0⟩, ⟨3 / 4, 0⟩, ⟨1, 0⟩, ⟨5 / 4, 0⟩, ⟨3 / 2, 0⟩]

/-- The six waypoints from `(1/4, 0)` towards the goal `(7/4, 0)`. -/
def route6 : List (Vector2f ℚ) :=
  [⟨1 / 4, 0⟩, ⟨1 / 2, 0⟩, ⟨3 / 4, 0⟩, ⟨1, 0⟩, ⟨5 / 4, 0⟩, ⟨3 / 2, 0⟩]

/-- The state after the first `GetLocalGoal` call of `walledPlanner`, made at the origin. -/
def afterFirstCall : Planner ℚ := { walledPlanner with path_ := route7, path_start_idx := 4 }

/-- The state after a second `GetLocalGoal` call, made at `(1/4, 0)`. -/
def afterSecondCall : Planner ℚ := { walledPlanner with path_ := route7, path_start_idx := 5 }

/-- A planner enclosed by the ring, aiming at a goal outside of it, before any call. -/
def freshRingPlanner : Planner ℚ := plannerWith ringMap ⟨2, 0⟩

/-! ## Invariant of the search loop -/

/-- Walking the parent map from a location arrives at `start`, each step landing on a
visited location. -/
inductive Linked (visited : List (Vector2f S)) (parents : List (Vector2f S × Vector2f S))
    (start : Vector2f S) : Vector2f S → Prop where
  | base : Linked visited parents start start
  | step (v p : Vector2f S) : parentsAt parents v = some p → p ∈ visited →
      Linked visited parents start p → Linked visited parents start v

/-- What holds of frontier, visited set and parent map at every turn of the search loop:
a queued location is the start or has a visited parent, every visited location walks
back to the start, and every parent entry is a step of the neighbor generator. -/
structure SearchInv (E : Env S) (pl : Planner S) (start : Vector2f S)
    (frontier : SimpleQueue S) (visited : List (Vector2f S))
    (parents : List (Vector2f S × Vector2f S)) : Prop where
  frontier_ok : ∀ e ∈ frontier.values_, e.1.curr_loc = start ∨
    ∃ p, parentsAt parents e.1.curr_loc = some p ∧ p ∈ visited
  visited_ok : ∀ v ∈ visited, Linked visited parents start v
  parents_ok : ∀ q p, parentsAt parents q = some p → q ∈ Neighbors_ E pl p []

/-- One step of the neighbor generator on the map of the planner. -/
def Step (E : Env S) (pl : Planner S) (p q : Vector2f S) : Prop := q ∈ Neighbors_ E pl p []

/-- One lattice step, obstacles left aside: a move by one of the eight offsets. -/
def LatticeStep (E : Env S) (p q : Vector2f S) : Prop := ∃ o ∈ lattices E, q = p + o

/-! ## Norm laws, pop order and visit order -/

/-- The laws of a vector norm that the statements about costs in exact arithmetic rest
on, written for differences of points: the Euclidean norm satisfies them over the reals. -/
structure NormLaws (E : Env S) : Prop where
  nonneg : ∀ v, 0 ≤ E.norm v
  self : ∀ v, E.norm (v - v) = 0
  symm : ∀ u v, E.norm (u - v) = E.norm (v - u)
  triangle : ∀ u v w, E.norm (u - w) ≤ E.norm (u - v) + E.norm (v - w)

/-- The locations the search loop pops, in order, within the given fuel.  It follows
`searchLoop` turn by turn and records `current` at each pop. -/
def popTrace (E : Env S) (pl : Planner S) : Nat → SearchVars S → List (Vector2f S)
  | 0, _ => []
  | fuel + 1, st =>
    if st.frontier.Empty then []
    else
      match st.frontier.Pop with
      | none => []
      | some (curr_state, frontier) =>
        let current := curr_state.curr_loc
        let visited := st.visited.insert current
        let curr_cost := curr_state.cost
        if AtGoal E pl current then [current]
        else
          let grown := expandLoop E pl current curr_cost visited (Neighbors_ E pl current [])
            (frontier, st.parents)
          current :: popTrace E pl fuel
            { frontier := grown.1, visited := visited, parents := grown.2,
              current := some current }

/-- The visited locations, newest first, are in visit order with respect to the parent
map: each is the start or has its parent among the locations visited before it. -/
def Ordered (parents : List (Vector2f S × Vector2f S)) (start : Vector2f S) :
    List (Vector2f S) → Prop
  | [] => True
  | v :: older =>
    (v = start ∨ ∃ p, parentsAt parents v = some p ∧ p ∈ older) ∧ Ordered parents start older

/-- What holds of frontier, visited set and parent map at every turn of the search loop,
beyond `SearchInv`: the frontier holds one entry per location, none of them visited
yet; the visited list has no repetition and is in visit order; the start has no parent
entry; and every location seen satisfies `Good`, a property kept by the steps of the
neighbor generator. -/
structure SearchInv2 (start : Vector2f S) (Good : Vector2f S → Prop)
    (frontier : SimpleQueue S) (visited : List (Vector2f S))
    (parents : List (Vector2f S × Vector2f S)) : Prop where
  keys_nodup : (frontier.values_.map (fun e => e.1.curr_loc)).Nodup
  keys_fresh : ∀ e ∈ frontier.values_, e.1.curr_loc ∉ visited
  keys_good : ∀ e ∈ frontier.values_, Good e.1.curr_loc
  visited_nodup : visited.Nodup
  visited_good : ∀ v ∈ visited, Good v
  ordered : Ordered parents start visited
  start_seen : start ∈ visited ∨ ∀ e ∈ frontier.values_, e.1.curr_loc = start
  start_no_parent : parentsAt parents start = none

/-! ## Path cost -/

/-- Total cost of a waypoint sequence: the accumulated cost `GetCost_` adds up along
it, one edge per consecutive pair. -/
def pathCost (E : Env S) : List (Vector2f S) → S
  | [] => 0
  | [_] => 0
  | p :: q :: rest => GetCost_ E q p (pathCost E (q :: rest))

/-- A sequence of steps of the neighbor generator from `start` to `finish`. -/
def Route (E : Env S) (pl : Planner S) (start : Vector2f S) (w : List (Vector2f S))
    (finish : Vector2f S) : Prop :=
  w.head? = some start ∧ w.getLast? = some finish ∧ List.Chain' (Step E pl) w

/-- Walking the parent map from a location arrives at `start`, each step landing on a
visited location, and the costs `GetCost_` adds along the way sum to `g`. -/
inductive LinkedCost (E : Env S) (visited : List (Vector2f S))
    (parents : List (Vector2f S × Vector2f S)) (start : Vector2f S) :
    Vector2f S → S → Prop where
  | base : LinkedCost E visited parents start start 0
  | step (v p : Vector2f S) (g : S) : v ≠ start → parentsAt parents v = some p →
      p ∈ visited → LinkedCost E visited parents start p g →
      LinkedCost E visited parents start v (GetCost_ E v p g)

/-- A location is covered at cost `bound`: it is visited, or queued with a cost of at
most `bound`. -/
def Covered (frontier : SimpleQueue S) (visited : List (Vector2f S)) (q : Vector2f S)
    (bound : S) : Prop :=
  q ∈ visited ∨ ∃ e ∈ frontier.values_, e.1.curr_loc = q ∧ e.1.cost ≤ bound

/-- What holds of the costs at every turn of the search loop.  A queued entry has the
priority `cost + heuristic` (once anything is visited) and its cost is the cost of the
walk back through its parent.  A visited location has a walk back of some cost `g`, no
route from the start to it is cheaper than `g`, it failed the goal test unless it is the
`pending` one, and, unless it is the `pending` one (popped but not yet expanded), each
of its neighbors is covered at the cost of going through it. -/
structure SearchInv3 (E : Env S) (pl : Planner S) (start : Vector2f S)
    (pending : Option (Vector2f S)) (frontier : SimpleQueue S) (visited : List (Vector2f S))
    (parents : List (Vector2f S × Vector2f S)) : Prop where
  entry_prio : ∀ e ∈ frontier.values_, visited ≠ [] →
    e.2 = e.1.cost + GetHeuristic_ E pl e.1.curr_loc
  entry_cost : ∀ e ∈ frontier.values_, (e.1.curr_loc = start ∧ e.1.cost = 0) ∨
    (e.1.curr_loc ≠ start ∧ ∃ p g, parentsAt parents e.1.curr_loc = some p ∧ p ∈ visited ∧
      LinkedCost E visited parents start p g ∧ e.1.cost = GetCost_ E e.1.curr_loc p g)
  visited_cost : ∀ v ∈ visited, ∃ g, LinkedCost E visited parents start v g ∧
    (∀ w, Route E pl start w v → g ≤ pathCost E w) ∧
    (pending ≠ some v → AtGoal E pl v = false ∧
      ∀ q ∈ Neighbors_ E pl v [], Covered frontier visited q (GetCost_ E q v g))

/-! ## Neighbor generator -/

/-- When the inner loop leaves `distance` above half the clearance, no line caused a
`break`, so every line of the map is farther than half the clearance. -/
theorem lastDistance_clear (E : Env S) (loc next : Vector2f S) (lines : List (line2f S)) :
    ∀ d : S, E.CAR_WIDTH_SAFE / 2 < lastDistance E loc next lines d →
      ∀ l ∈ lines, E.CAR_WIDTH_SAFE / 2 < E.MinDistanceLineLine l.p0 l.p1 loc next := by
  induction lines with
  | nil => intro d _ l hl; cases hl
  | cons a rest ih =>
    intro d h l hl
    simp only [lastDistance] at h
    by_cases hc : E.MinDistanceLineLine a.p0 a.p1 loc next ≤ E.CAR_WIDTH_SAFE / 2
    · rw [if_pos hc] at h
      exact absurd h (not_lt.mpr hc)
    · rw [if_neg hc] at h
      rcases List.mem_cons.mp hl with rfl | hl
      · exact not_le.mp hc
      · exact ih _ h l hl

/-- Membership in the output of the outer loop: an element passed in, or the destination
of an offset that was accepted. -/
theorem neighborsLoop_mem (E : Env S) (pl : Planner S) (loc : Vector2f S)
    (offsets : List (Vector2f S)) :
    ∀ (neighbors : List (Vector2f S)) (q : Vector2f S),
      q ∈ neighborsLoop E pl loc offsets neighbors →
        q ∈ neighbors ∨ ∃ o ∈ offsets, q = loc + o ∧
          E.CAR_WIDTH_SAFE / 2 < lastDistance E loc (loc + o) pl.map_.lines 0 := by
  induction offsets with
  | nil => intro neighbors q h; exact Or.inl h
  | cons a rest ih =>
    intro neighbors q h
    simp only [neighborsLoop] at h
    by_cases hc : E.CAR_WIDTH_SAFE / 2 < lastDistance E loc (loc + a) pl.map_.lines 0
    · rw [if_pos hc] at h
      rcases ih _ q h with h1 | ⟨o, ho, hq, hd⟩
      · rcases List.mem_append.mp h1 with h2 | h2
        · exact Or.inl h2
        · refine Or.inr ⟨a, List.mem_cons_self _ _, ?_, hc⟩
          simpa using h2
      · exact Or.inr ⟨o, List.mem_cons_of_mem _ ho, hq, hd⟩
    · rw [if_neg hc] at h
      rcases ih _ q h with h1 | ⟨o, ho, hq, hd⟩
      · exact Or.inl h1
      · exact Or.inr ⟨o, List.mem_cons_of_mem _ ho, hq, hd⟩

/-- Every neighbor is the start point moved by one lattice offset of the planner, and
its travel segment is farther than half the clearance from every line of the map. -/
theorem Neighbors_sound (E : Env S) (pl : Planner S) (loc q : Vector2f S)
    (h : q ∈ Neighbors_ E pl loc []) :
    ∃ o ∈ pl.lattices_, q = loc + o ∧
      ∀ l ∈ pl.map_.lines, E.CAR_WIDTH_SAFE / 2 < E.MinDistanceLineLine l.p0 l.p1 loc q := by
  rcases neighborsLoop_mem E pl loc pl.lattices_ [] q h with h1 | ⟨o, ho, hq, hd⟩
  · cases h1
  · refine ⟨o, ho, hq, ?_⟩
    rw [hq]
    exact lastDistance_clear E loc (loc + o) pl.map_.lines 0 hd

/-- On a map without lines and with a non-negative clearance the outer loop accepts no
offset: `distance` keeps its initial value zero. -/
theorem neighborsLoop_no_lines (E : Env S) (pl : Planner S) (loc : Vector2f S)
    (hmap : pl.map_.lines = []) (hw : 0 ≤ E.CAR_WIDTH_SAFE / 2) (offsets : List (Vector2f S)) :
    ∀ neighbors, neighborsLoop E pl loc offsets neighbors = neighbors := by
  induction offsets with
  | nil => intro neighbors; rfl
  | cons a rest ih =>
    intro neighbors
    simp only [neighborsLoop, hmap, lastDistance]
    rw [if_neg (not_lt.mpr hw)]
    exact ih neighbors

/-- C6: for every map and location, each point `next` that `Neighbors_` returns has its
travel segment `loc`-to-`next` strictly farther than `CAR_WIDTH_SAFE / 2` from every
obstacle segment of the map. -/
theorem C6_neighbors_clear_of_obstacles (E : Env S) (pl : Planner S) (loc next : Vector2f S)
    (hnext : next ∈ Neighbors_ E pl loc []) (l : line2f S) (hl : l ∈ pl.map_.lines) :
    E.CAR_WIDTH_SAFE / 2 < E.MinDistanceLineLine l.p0 l.p1 loc next := by
  obtain ⟨o, _, hq, hclear⟩ := Neighbors_sound E pl loc next hnext
  exact hclear l hl

/-- C6 at a concrete input: beside the wall `y = 5` the step from the origin to
`(1/4, 0)` is returned and lies farther than 1/4 from the wall. -/
theorem C6_neighbors_clear_of_obstacles_witness :
    (⟨1 / 4, 0⟩ : Vector2f ℚ) ∈ Neighbors_ envQ (plannerWith wallMap ⟨1, 0⟩) ⟨0, 0⟩ [] ∧
    (⟨⟨-10, 5⟩, ⟨10, 5⟩⟩ : line2f ℚ) ∈ (plannerWith wallMap ⟨1, 0⟩).map_.lines ∧
    envQ.CAR_WIDTH_SAFE / 2 <
      envQ.MinDistanceLineLine ⟨-10, 5⟩ ⟨10, 5⟩ ⟨0, 0⟩ ⟨1 / 4, 0⟩ :=
  ⟨by decide!, by decide!,
    C6_neighbors_clear_of_obstacles envQ (plannerWith wallMap ⟨1, 0⟩) ⟨0, 0⟩ ⟨1 / 4, 0⟩
      (by decide!) ⟨⟨-10, 5⟩, ⟨10, 5⟩⟩ (by decide!)⟩

/-- C7 (the code departs from the claim): on a map without obstacle segments the claim
keeps all eight offsets, while `Neighbors_` appends nothing, because `distance` starts
at zero and is compared with the positive half clearance. -/
theorem C7_no_neighbors_on_empty_map :
    Neighbors_ envQ (plannerWith ⟨[]⟩ ⟨10, 0⟩) ⟨0, 0⟩ [] = [] ∧
    NeighborsSpec envQ (plannerWith ⟨[]⟩ ⟨10, 0⟩) ⟨0, 0⟩ =
      [⟨1 / 4, 0⟩, ⟨-1 / 4, 0⟩, ⟨0, 1 / 4⟩, ⟨0, -1 / 4⟩,
       ⟨1 / 4, 1 / 4⟩, ⟨-1 / 4, -1 / 4⟩, ⟨1 / 4, -1 / 4⟩, ⟨-1 / 4, 1 / 4⟩] :=
  ⟨by decide!, by decide!⟩

/-- C8: `AtGoal` answers true exactly when no goal is set or the distance from the
location to the goal location is strictly below `STOP_DIST`; being a function of the
state it changes none of it. -/
theorem C8_AtGoal_iff (E : Env S) (pl : Planner S) (robot_mloc : Vector2f S) :
    AtGoal E pl robot_mloc = true ↔
      (pl.global_goal_set_ = false ∨
        E.norm (robot_mloc - pl.global_goal_mloc_) < E.STOP_DIST) := by
  unfold AtGoal
  cases hset : pl.global_goal_set_ <;> simp

/-- C9: without a goal `GetLocalGoal` returns the robot location and the unchanged
state, whatever the fuel: no search is run. -/
theorem C9_GetLocalGoal_without_goal (E : Env S) (fuel : Nat) (pl : Planner S)
    (robot_mloc : Vector2f S) (robot_mangle : S) (hset : pl.global_goal_set_ = false) :
    GetLocalGoal E fuel pl robot_mloc robot_mangle = .ok (robot_mloc, pl) := by
  unfold GetLocalGoal
  simp [hset]

/-- C9 at a concrete input: a freshly constructed planner asked at `(3, 4)`. -/
theorem C9_GetLocalGoal_without_goal_witness :
    (Planner.Planner envQ).global_goal_set_ = false ∧
    GetLocalGoal envQ 0 (Planner.Planner envQ) ⟨3, 4⟩ 0 = .ok (⟨3, 4⟩, Planner.Planner envQ) :=
  ⟨rfl, C9_GetLocalGoal_without_goal envQ 0 (Planner.Planner envQ) ⟨3, 4⟩ 0 rfl⟩

/-! ## Frontier -/

/-- An entry of the queue after a push was there before or is the pushed one. -/
theorem pushEntries_mem (v : SearchState S) (p : S) (entries : List (SearchState S × S)) :
    ∀ e ∈ (pushEntries v p entries).1, e ∈ entries ∨ e = (v, p) := by
  induction entries with
  | nil => intro e he; right; simpa [pushEntries] using he
  | cons a rest ih =>
    intro e he
    simp only [pushEntries] at he
    split_ifs at he with h1 h2
    · rcases List.mem_cons.mp he with rfl | h
      · exact Or.inr rfl
      · exact Or.inl (List.mem_cons_of_mem _ h)
    · exact Or.inl he
    · rcases List.mem_cons.mp he with rfl | h
      · exact Or.inl (List.mem_cons_self _ _)
      · rcases ih e h with h | h
        · exact Or.inl (List.mem_cons_of_mem _ h)
        · exact Or.inr h

/-- A refused push leaves the queue as it was. -/
theorem pushEntries_refused (v : SearchState S) (p : S) (entries : List (SearchState S × S))
    (h : (pushEntries v p entries).2 = false) : (pushEntries v p entries).1 = entries := by
  induction entries with
  | nil => simp [pushEntries] at h
  | cons a rest ih =>
    simp only [pushEntries] at h ⊢
    split_ifs at h ⊢ with h1 h2
    · rfl
    · simp only at h ⊢
      rw [ih h]

/-- The entry selected by a pop is one of the queued entries. -/
theorem minEntry_mem (rest : List (SearchState S × S)) :
    ∀ best : SearchState S × S, minEntry best rest ∈ best :: rest := by
  induction rest with
  | nil => intro best; simp [minEntry]
  | cons a rest ih =>
    intro best
    simp only [minEntry]
    split_ifs
    · exact List.mem_cons_of_mem _ (ih a)
    · rcases List.mem_cons.mp (ih best) with h | h
      · rw [h]; exact List.mem_cons_self _ _
      · exact List.mem_cons_of_mem _ (List.mem_cons_of_mem _ h)

/-- A pop returns the node of a queued entry and leaves only queued entries behind. -/
theorem Pop_spec (q q' : SimpleQueue S) (v : SearchState S) (h : q.Pop = some (v, q')) :
    (∃ p, (v, p) ∈ q.values_) ∧ ∀ e ∈ q'.values_, e ∈ q.values_ := by
  unfold SimpleQueue.Pop at h
  cases hq : q.values_ with
  | nil => rw [hq] at h; cases h
  | cons a rest =>
    rw [hq] at h
    simp only [Option.some.injEq, Prod.mk.injEq] at h
    obtain ⟨hv, hq'⟩ := h
    constructor
    · refine ⟨(minEntry a rest).2, ?_⟩
      rw [← hv]
      exact minEntry_mem rest a
    · intro e he
      rw [← hq'] at he
      exact List.mem_of_mem_erase he

/-! ## Parent map -/

/-- Lookup after `insert_or_assign`. -/
theorem parentsAt_insert_or_assign (m : List (Vector2f S × Vector2f S)) (k v k' : Vector2f S) :
    parentsAt (insert_or_assign m k v) k' = if k = k' then some v else parentsAt m k' := by
  induction m with
  | nil => simp [insert_or_assign, parentsAt]
  | cons a rest ih =>
    simp only [insert_or_assign]
    by_cases h1 : a.1 = k
    · rw [if_pos h1]
      simp only [parentsAt]
      by_cases h2 : k = k'
      · simp [h2]
      · have : ¬ a.1 = k' := by rw [h1]; exact h2
        simp [h2, this]
    · rw [if_neg h1]
      simp only [parentsAt]
      by_cases h3 : a.1 = k'
      · have : ¬ k = k' := by rw [← h3]; exact fun h => h1 h.symm
        simp [h3, this]
      · simp only [if_neg h3]
        exact ih

/-! ## The search loop keeps its invariant -/

/-- Growing the visited set keeps a location linked to the start. -/
theorem Linked_mono (visited visited' : List (Vector2f S))
    (parents : List (Vector2f S × Vector2f S)) (start v : Vector2f S)
    (hsub : ∀ x ∈ visited, x ∈ visited') (h : Linked visited parents start v) :
    Linked visited' parents start v := by
  induction h with
  | base => exact Linked.base
  | step v p hp hmem _ ih => exact Linked.step v p hp (hsub p hmem) ih

/-- Assigning a parent to a location that is not visited keeps every visited location
linked to the start. -/
theorem Linked_assign (visited : List (Vector2f S)) (parents : List (Vector2f S × Vector2f S))
    (start next current v : Vector2f S) (hnext : next ∉ visited)
    (h : Linked visited parents start v) :
    v ∈ visited → Linked visited (insert_or_assign parents next current) start v := by
  induction h with
  | base => intro _; exact Linked.base
  | step v p hp hmem _ ih =>
    intro hv
    have hne : ¬ next = v := fun e => hnext (e ▸ hv)
    refine Linked.step v p ?_ hmem (ih hmem)
    rw [parentsAt_insert_or_assign, if_neg hne]
    exact hp

/-- The invariant on entry to the search loop. -/
theorem SearchInv_initial (E : Env S) (pl : Planner S) (start : Vector2f S) :
    SearchInv E pl start (initialVars start).frontier (initialVars start).visited
      (initialVars start).parents := by
  refine ⟨?_, ?_, ?_⟩
  · intro e he
    left
    simp only [initialVars, SimpleQueue.Push, pushEntries, List.mem_singleton] at he
    rw [he]
  · intro v hv
    simp [initialVars] at hv
  · intro q p h
    simp [initialVars, parentsAt] at h

/-- The `for` loop over the neighbors keeps the invariant. -/
theorem expandLoop_inv (E : Env S) (pl : Planner S) (start current : Vector2f S) (curr_cost : S)
    (visited : List (Vector2f S)) (hcur : current ∈ visited) (ns : List (Vector2f S)) :
    ∀ acc : SimpleQueue S × List (Vector2f S × Vector2f S),
      (∀ n ∈ ns, n ∈ Neighbors_ E pl current []) →
      SearchInv E pl start acc.1 visited acc.2 →
      SearchInv E pl start (expandLoop E pl current curr_cost visited ns acc).1 visited
        (expandLoop E pl current curr_cost visited ns acc).2 := by
  induction ns with
  | nil => intro acc _ h; exact h
  | cons next rest ih =>
    intro acc hns hinv
    have hrest : ∀ n ∈ rest, n ∈ Neighbors_ E pl current [] :=
      fun n hn => hns n (List.mem_cons_of_mem _ hn)
    simp only [expandLoop]
    by_cases hvis : next ∈ visited
    · rw [if_pos hvis]
      exact ih acc hrest hinv
    · rw [if_neg hvis]
      by_cases hpush : (acc.1.Push ⟨next, GetCost_ E next current curr_cost⟩
          (GetCost_ E next current curr_cost + GetHeuristic_ E pl next)).2 = true
      · rw [if_pos hpush]
        apply ih _ hrest
        refine ⟨?_, ?_, ?_⟩
        · intro e he
          rcases pushEntries_mem _ _ _ e he with h | h
          · rcases hinv.frontier_ok e h with h1 | ⟨p, hp, hpv⟩
            · exact Or.inl h1
            · right
              by_cases hk : next = e.1.curr_loc
              · exact ⟨current, by rw [parentsAt_insert_or_assign, if_pos hk], hcur⟩
              · exact ⟨p, by rw [parentsAt_insert_or_assign, if_neg hk]; exact hp, hpv⟩
          · right
            refine ⟨current, ?_, hcur⟩
            rw [h, parentsAt_insert_or_assign, if_pos rfl]
        · intro v hv
          exact Linked_assign visited acc.2 start next current v hvis (hinv.visited_ok v hv) hv
        · intro q p hqp
          rw [parentsAt_insert_or_assign] at hqp
          by_cases hk : next = q
          · rw [if_pos hk] at hqp
            cases hqp
            rw [← hk]
            exact hns next (List.mem_cons_self _ _)
          · rw [if_neg hk] at hqp
            exact hinv.parents_ok q p hqp
      · rw [if_neg hpush]
        apply ih _ hrest
        have hsame : (acc.1.Push ⟨next, GetCost_ E next current curr_cost⟩
            (GetCost_ E next current curr_cost + GetHeuristic_ E pl next)).1 = acc.1 := by
          simp only [SimpleQueue.Push]
          rw [pushEntries_refused _ _ _ (by simpa [SimpleQueue.Push] using hpush)]
        rw [hsame]
        exact hinv

/-- The search loop, when it is left, has the invariant, and `current` holds a visited
location: the last one popped. -/
theorem searchLoop_inv (E : Env S) (pl : Planner S) (start : Vector2f S) (fuel : Nat) :
    ∀ st st' : SearchVars S,
      SearchInv E pl start st.frontier st.visited st.parents →
      (st.current = none → st.frontier.Empty = false) →
      (∀ c, st.current = some c → c ∈ st.visited) →
      searchLoop E pl fuel st = some st' →
      SearchInv E pl start st'.frontier st'.visited st'.parents ∧
        ∃ c, st'.current = some c ∧ c ∈ st'.visited := by
  induction fuel with
  | zero => intro st st' _ _ _ h; simp [searchLoop] at h
  | succ fuel ih =>
    intro st st' hinv hinit hcur h
    simp only [searchLoop] at h
    by_cases hempty : st.frontier.Empty = true
    · rw [if_pos hempty] at h
      cases h
      refine ⟨hinv, ?_⟩
      cases hc : st.current with
      | none => rw [hinit hc] at hempty; cases hempty
      | some c => exact ⟨c, rfl, hcur c hc⟩
    · rw [if_neg hempty] at h
      cases hpop : st.frontier.Pop with
      | none =>
        exfalso
        unfold SimpleQueue.Pop at hpop
        unfold SimpleQueue.Empty at hempty
        cases hv : st.frontier.values_ with
        | nil => rw [hv] at hempty; simp at hempty
        | cons a rest => rw [hv] at hpop; simp at hpop
      | some popped =>
        obtain ⟨curr_state, frontier⟩ := popped
        rw [hpop] at h
        simp only at h
        obtain ⟨⟨p0, hp0⟩, hsub⟩ := Pop_spec st.frontier frontier curr_state hpop
        have hmono : ∀ x ∈ st.visited, x ∈ st.visited.insert curr_state.curr_loc :=
          fun x hx => List.mem_insert_of_mem hx
        have hself : curr_state.curr_loc ∈ st.visited.insert curr_state.curr_loc :=
          List.mem_insert_self _ _
        have hinv' : SearchInv E pl start frontier (st.visited.insert curr_state.curr_loc)
            st.parents := by
          refine ⟨?_, ?_, hinv.parents_ok⟩
          · intro e he
            rcases hinv.frontier_ok e (hsub e he) with h1 | ⟨p, hp, hpv⟩
            · exact Or.inl h1
            · exact Or.inr ⟨p, hp, hmono p hpv⟩
          · intro v hv
            rcases List.mem_insert_iff.mp hv with rfl | hv
            · rcases hinv.frontier_ok _ hp0 with h1 | ⟨p, hp, hpv⟩
              · simp only at h1
                rw [h1]
                exact Linked.base
              · exact Linked.step _ p hp (hmono p hpv)
                  (Linked_mono _ _ _ _ _ hmono (hinv.visited_ok p hpv))
            · exact Linked_mono _ _ _ _ _ hmono (hinv.visited_ok v hv)
        by_cases hgoal : AtGoal E pl curr_state.curr_loc = true
        · rw [if_pos hgoal] at h
          cases h
          exact ⟨hinv', _, rfl, hself⟩
        · rw [if_neg hgoal] at h
          refine ih _ st' ?_ ?_ ?_ h
          · exact expandLoop_inv E pl start curr_state.curr_loc curr_state.cost _ hself _
              (frontier, st.parents) (fun n hn => hn) hinv'
          · intro hc; cases hc
          · intro c hc
            cases hc
            exact hself

/-! ## Path reconstruction -/

/-- A location linked to the start is reachable from it by steps of the neighbor
generator, provided the parent entries are such steps. -/
theorem Linked_reachable (E : Env S) (pl : Planner S) (visited : List (Vector2f S))
    (parents : List (Vector2f S × Vector2f S)) (start v : Vector2f S)
    (hpar : ∀ q p, parentsAt parents q = some p → q ∈ Neighbors_ E pl p [])
    (h : Linked visited parents start v) : Relation.ReflTransGen (Step E pl) start v := by
  induction h with
  | base => exact Relation.ReflTransGen.refl
  | step v p hp _ _ ih => exact Relation.ReflTransGen.tail ih (hpar v p hp)

/-- When the reconstruction loop is left normally, the path begins at the start, ends
where the path passed in ended, and its new consecutive pairs are parent entries. -/
theorem walkBack_ok (start : Vector2f S) (parents : List (Vector2f S × Vector2f S))
    (fuel : Nat) :
    ∀ (c : Vector2f S) (rest path : List (Vector2f S)),
      walkBack start parents fuel c (c :: rest) = some (.ok path) →
      path.head? = some start ∧ path.getLast? = (c :: rest).getLast? ∧
        (List.Chain' (fun p q => parentsAt parents q = some p) (c :: rest) →
          List.Chain' (fun p q => parentsAt parents q = some p) path) := by
  induction fuel with
  | zero => intro c rest path h; simp [walkBack] at h
  | succ fuel ih =>
    intro c rest path h
    simp only [walkBack] at h
    by_cases hc : c ≠ start
    · rw [if_pos hc] at h
      cases hp : parentsAt parents c with
      | none => rw [hp] at h; simp at h
      | some parent =>
        rw [hp] at h
        simp only at h
        obtain ⟨h1, h2, h3⟩ := ih parent (c :: rest) path h
        refine ⟨h1, ?_, ?_⟩
        · rw [h2]
          simp [List.getLast?_cons_cons]
        · intro hch
          exact h3 (List.Chain'.cons hp hch)
    · rw [if_neg hc] at h
      simp only [Option.some.injEq, Except.ok.injEq] at h
      rw [← h]
      refine ⟨?_, rfl, fun hch => hch⟩
      simp only [ne_eq, not_not] at hc
      simp [hc]

/-- From a location linked to the start the reconstruction loop never meets a missing
key: `parents.at` does not throw. -/
theorem walkBack_no_throw (visited : List (Vector2f S))
    (parents : List (Vector2f S × Vector2f S)) (start c : Vector2f S)
    (h : Linked visited parents start c) :
    ∀ (fuel : Nat) (path bad : List (Vector2f S)),
      walkBack start parents fuel c path ≠ some (.error bad) := by
  induction h with
  | base =>
    intro fuel path bad
    cases fuel <;> simp [walkBack]
  | step v p hp _ _ ih =>
    intro fuel path bad
    cases fuel with
    | zero => simp [walkBack]
    | succ fuel =>
      simp only [walkBack]
      by_cases hc : v ≠ start
      · rw [if_pos hc, hp]
        exact ih fuel (p :: path) bad
      · rw [if_neg hc]
        simp

/-- The three ways a `GetGlobalPlan` call with a goal set can end: the fuel of the model
runs out; the last popped location, reachable from the start, fails the goal test and
the path is left empty; or the last popped location, reachable from the start, passes
the goal test and the path runs from the start to it along steps of the neighbor
generator. -/
theorem GetGlobalPlan_cases (E : Env S) (fuel : Nat) (pl : Planner S) (start : Vector2f S)
    (angle : S) (hset : pl.global_goal_set_ = true) :
    GetGlobalPlan E fuel pl start angle = .error .out_of_fuel ∨
    (∃ c, Relation.ReflTransGen (Step E pl) start c ∧ AtGoal E pl c = false ∧
      GetGlobalPlan E fuel pl start angle = .ok { pl with path_ := [] }) ∨
    (∃ c path, Relation.ReflTransGen (Step E pl) start c ∧ AtGoal E pl c = true ∧
      GetGlobalPlan E fuel pl start angle = .ok { pl with path_ := path } ∧
      path.head? = some start ∧ path.getLast? = some c ∧ List.Chain' (Step E pl) path) := by
  unfold GetGlobalPlan
  simp only [hset, Bool.not_true, Bool.false_eq_true, if_false]
  cases hloop : searchLoop E pl fuel (initialVars start) with
  | none => exact Or.inl rfl
  | some st =>
    obtain ⟨hinv, c, hc, hcv⟩ := searchLoop_inv E pl start fuel (initialVars start) st
      (SearchInv_initial E pl start)
      (fun _ => by simp [initialVars, SimpleQueue.Push, SimpleQueue.Empty, pushEntries])
      (fun c hc => by simp [initialVars] at hc) hloop
    have hlinked := hinv.visited_ok c hcv
    simp only [hc]
    cases hgoal : AtGoal E pl c with
    | false =>
      right; left
      exact ⟨c, Linked_reachable E pl _ _ start c hinv.parents_ok hlinked, hgoal, by simp⟩
    | true =>
      simp only [Bool.not_true, Bool.false_eq_true, if_false]
      cases hwalk : walkBack start st.parents fuel c [c] with
      | none => exact Or.inl rfl
      | some r =>
        cases r with
        | error bad => exact absurd hwalk (walkBack_no_throw _ _ start c hlinked fuel [c] bad)
        | ok path =>
          right; right
          obtain ⟨h1, h2, h3⟩ := walkBack_ok start st.parents fuel c [] path hwalk
          refine ⟨c, path, Linked_reachable E pl _ _ start c hinv.parents_ok hlinked, hgoal, rfl,
            h1, by simpa using h2, ?_⟩
          exact List.Chain'.imp (fun p q hpq => hinv.parents_ok q p hpq)
            (h3 (List.chain'_singleton c))

/-! ## Global search: the claims -/

/-- C1: with a goal set, a `GetGlobalPlan` call raises no error (the only fault is the
fuel of the model), and when it leaves `Path` non-empty the first element of `Path` is
the start and the last element passes the goal test `AtGoal`. -/
theorem C1_path_runs_from_start_to_goal (E : Env S) (fuel : Nat) (pl : Planner S)
    (start : Vector2f S) (angle : S) (hset : pl.global_goal_set_ = true) :
    (∀ f, GetGlobalPlan E fuel pl start angle = .error f → f = .out_of_fuel) ∧
    ∀ pl', GetGlobalPlan E fuel pl start angle = .ok pl' → pl'.path_ ≠ [] →
      pl'.path_.head? = some start ∧
        ∃ last, pl'.path_.getLast? = some last ∧ AtGoal E pl' last = true := by
  rcases GetGlobalPlan_cases E fuel pl start angle hset with h | ⟨c, _, _, h⟩ |
    ⟨c, path, _, hgoal, h, hhead, hlast, _⟩
  · rw [h]
    refine ⟨fun f hf => ?_, fun pl' hpl' => ?_⟩
    · cases hf; rfl
    · cases hpl'
  · rw [h]
    refine ⟨fun f hf => ?_, fun pl' hpl' hne => ?_⟩
    · cases hf
    · cases hpl'
      exact absurd rfl hne
  · rw [h]
    refine ⟨fun f hf => ?_, fun pl' hpl' _ => ?_⟩
    · cases hf
    · cases hpl'
      exact ⟨hhead, c, hlast, hgoal⟩

/-- C1 at a concrete input: beside the wall, from the origin towards the goal `(1, 0)`,
the search returns a four-point path from the origin to `(3/4, 0)`, which is within the
stop distance 1/2 of the goal. -/
theorem C1_path_runs_from_start_to_goal_witness :
    GetGlobalPlan envQ 10 (plannerWith wallMap ⟨1, 0⟩) ⟨0, 0⟩ 0 =
      .ok { plannerWith wallMap ⟨1, 0⟩ with
            path_ := [⟨0, 0⟩, ⟨1 / 4, 0⟩, ⟨1 / 2, 0⟩, ⟨3 / 4, 0⟩] } ∧
    ([⟨0, 0⟩, ⟨1 / 4, 0⟩, ⟨1 / 2, 0⟩, ⟨3 / 4, 0⟩] : List (Vector2f ℚ)).head? = some ⟨0, 0⟩ ∧
    ∃ last, ([⟨0, 0⟩, ⟨1 / 4, 0⟩, ⟨1 / 2, 0⟩, ⟨3 / 4, 0⟩] : List (Vector2f ℚ)).getLast? =
        some last ∧
      AtGoal envQ { plannerWith wallMap ⟨1, 0⟩ with
            path_ := [⟨0, 0⟩, ⟨1 / 4, 0⟩, ⟨1 / 2, 0⟩, ⟨3 / 4, 0⟩] } last = true :=
  ⟨by decide!,
    (C1_path_runs_from_start_to_goal envQ 10 (plannerWith wallMap ⟨1, 0⟩) ⟨0, 0⟩ 0 rfl).2
      { plannerWith wallMap ⟨1, 0⟩ with
        path_ := [⟨0, 0⟩, ⟨1 / 4, 0⟩, ⟨1 / 2, 0⟩, ⟨3 / 4, 0⟩] }
      (by decide!) (by simp)⟩

/-- C2: with a goal set and the lattice of the constructor, every consecutive pair
`(p, q)` of the `Path` a `GetGlobalPlan` call produces is one step of the neighbor
generator: `q` is returned by `Neighbors_` at `p`, it is `p` moved by one of the eight
lattice offsets, and the segment from `p` to `q` is farther than half the clearance
from every obstacle segment. -/
theorem C2_path_steps_are_neighbor_steps (E : Env S) (fuel : Nat) (pl pl' : Planner S)
    (start : Vector2f S) (angle : S) (hset : pl.global_goal_set_ = true)
    (hlat : pl.lattices_ = lattices E)
    (hplan : GetGlobalPlan E fuel pl start angle = .ok pl') :
    List.Chain' (fun p q => q ∈ Neighbors_ E pl p [] ∧ ∃ o ∈ lattices E, q = p + o ∧
      ∀ l ∈ pl.map_.lines, E.CAR_WIDTH_SAFE / 2 < E.MinDistanceLineLine l.p0 l.p1 p q)
      pl'.path_ := by
  rcases GetGlobalPlan_cases E fuel pl start angle hset with h | ⟨c, _, _, h⟩ |
    ⟨c, path, _, _, h, _, _, hchain⟩
  · rw [h] at hplan; cases hplan
  · rw [h] at hplan; cases hplan
    exact List.chain'_nil
  · rw [h] at hplan; cases hplan
    refine List.Chain'.imp (fun p q hpq => ⟨hpq, ?_⟩) hchain
    have := Neighbors_sound E pl p q hpq
    rw [hlat] at this
    exact this

/-- C2 at a concrete input: the four-point path beside the wall. -/
theorem C2_path_steps_are_neighbor_steps_witness :
    List.Chain' (fun p q => q ∈ Neighbors_ envQ (plannerWith wallMap ⟨1, 0⟩) p [] ∧
      ∃ o ∈ lattices envQ, q = p + o ∧
      ∀ l ∈ (plannerWith wallMap ⟨1, 0⟩).map_.lines,
        envQ.CAR_WIDTH_SAFE / 2 < envQ.MinDistanceLineLine l.p0 l.p1 p q)
      ([⟨0, 0⟩, ⟨1 / 4, 0⟩, ⟨1 / 2, 0⟩, ⟨3 / 4, 0⟩] : List (Vector2f ℚ)) :=
  C2_path_steps_are_neighbor_steps envQ 10 (plannerWith wallMap ⟨1, 0⟩)
    { plannerWith wallMap ⟨1, 0⟩ with path_ := [⟨0, 0⟩, ⟨1 / 4, 0⟩, ⟨1 / 2, 0⟩, ⟨3 / 4, 0⟩] }
    ⟨0, 0⟩ 0 rfl rfl (by decide!)

/-- On a map without lines and with a non-negative clearance, a search from a start that
fails the goal test pops the start, finds no neighbor and ends with an empty frontier:
`Path` is left empty. -/
theorem GetGlobalPlan_no_lines (E : Env S) (fuel : Nat) (pl : Planner S) (start : Vector2f S)
    (angle : S) (hset : pl.global_goal_set_ = true) (hmap : pl.map_.lines = [])
    (hw : 0 ≤ E.CAR_WIDTH_SAFE / 2) (hstart : AtGoal E pl start = false) :
    GetGlobalPlan E (fuel + 2) pl start angle = .ok { pl with path_ := [] } := by
  have hn : Neighbors_ E pl start [] = [] :=
    neighborsLoop_no_lines E pl start hmap hw pl.lattices_ []
  simp [GetGlobalPlan, hset, searchLoop, initialVars, SimpleQueue.Push, pushEntries,
    SimpleQueue.Empty, SimpleQueue.Pop, minEntry, hstart, hn, expandLoop]

/-- Moving east by whole lattice steps is a sequence of lattice steps. -/
theorem lattice_reach_east (E : Env S) (p : Vector2f S) (n : Nat) :
    Relation.ReflTransGen (LatticeStep E) p ⟨p.x + n * E.GRID_SIZE, p.y⟩ := by
  induction n with
  | zero => simp; exact Relation.ReflTransGen.refl
  | succ n ih =>
    refine Relation.ReflTransGen.tail ih ⟨⟨E.GRID_SIZE, 0⟩, by simp [lattices], ?_⟩
    show (⟨_, _⟩ : Vector2f S) = ⟨_ + _, _ + _⟩
    congr 1
    · push_cast; ring
    · simp

/-- C3 (the code departs from the claim): in the scenario of the specification, an
empty map, start `(0, 0)`, goal `(10, 0)` and stop distance 1/2, the point `(10, 0)`
passes the goal test and is reachable from the start by lattice steps, yet
`GetGlobalPlan` returns with `Path` empty, for every amount of fuel from two on. -/
theorem C3_empty_map_search_finds_no_path :
    (plannerWith ⟨[]⟩ ⟨10, 0⟩).map_.lines = [] ∧
    AtGoal envQ (plannerWith ⟨[]⟩ ⟨10, 0⟩) ⟨10, 0⟩ = true ∧
    Relation.ReflTransGen (LatticeStep envQ) ⟨0, 0⟩ ⟨10, 0⟩ ∧
    ∀ fuel, GetGlobalPlan envQ (fuel + 2) (plannerWith ⟨[]⟩ ⟨10, 0⟩) ⟨0, 0⟩ 0 =
      .ok { plannerWith ⟨[]⟩ ⟨10, 0⟩ with path_ := [] } := by
  refine ⟨rfl, by decide!, ?_, fun fuel => ?_⟩
  · have h := lattice_reach_east envQ ⟨0, 0⟩ 40
    have e : ((0 : ℚ) + (40 : ℕ) * envQ.GRID_SIZE) = 10 := by norm_num [envQ]
    rw [e] at h
    exact h
  · exact GetGlobalPlan_no_lines envQ fuel _ ⟨0, 0⟩ 0 rfl rfl (by decide!) (by decide!)

/-- C4: with a goal set and no location passing the goal test reachable from the start
by steps of the neighbor generator, a `GetGlobalPlan` call either is cut off by the fuel
of the model or returns with `Path` empty, whatever `Path` held before: it raises no
error. -/
theorem C4_unreachable_goal_leaves_path_empty (E : Env S) (fuel : Nat) (pl : Planner S)
    (start : Vector2f S) (angle : S) (hset : pl.global_goal_set_ = true)
    (hunreachable : ∀ v, Relation.ReflTransGen (Step E pl) start v → AtGoal E pl v = false) :
    GetGlobalPlan E fuel pl start angle = .error .out_of_fuel ∨
      GetGlobalPlan E fuel pl start angle = .ok { pl with path_ := [] } := by
  rcases GetGlobalPlan_cases E fuel pl start angle hset with h | ⟨c, _, _, h⟩ |
    ⟨c, path, hreach, hgoal, _⟩
  · exact Or.inl h
  · exact Or.inr h
  · rw [hunreachable c hreach] at hgoal
    cases hgoal

/-- A set of locations that holds the start and is closed under steps of the neighbor
generator holds every location reachable from the start. -/
theorem reachable_mem_of_closed (E : Env S) (pl : Planner S) (cells : List (Vector2f S))
    (start v : Vector2f S) (hstart : start ∈ cells)
    (hclosed : ∀ p ∈ cells, ∀ q ∈ Neighbors_ E pl p [], q ∈ cells)
    (h : Relation.ReflTransGen (Step E pl) start v) : v ∈ cells := by
  induction h with
  | refl => exact hstart
  | tail _ hstep ih => exact hclosed _ ih _ hstep

/-- C4 at a concrete input: inside the closed ring the lattice reaches nine locations,
none of them passes the goal test for the goal `(2, 0)` outside the ring, and the search
from the origin exhausts the frontier and empties the two-point path left from before. -/
theorem C4_unreachable_goal_leaves_path_empty_witness :
    ringPlanner.path_ ≠ [] ∧
    GetGlobalPlan envQ 20 ringPlanner ⟨0, 0⟩ 0 = .ok { ringPlanner with path_ := [] } :=
  ⟨by decide,
    (C4_unreachable_goal_leaves_path_empty envQ 20 ringPlanner ⟨0, 0⟩ 0 rfl
      (fun v hv =>
        (by decide! : ∀ c ∈ ringCells, AtGoal envQ ringPlanner c = false) v
          (reachable_mem_of_closed envQ ringPlanner ringCells ⟨0, 0⟩ v (by decide!)
            (by decide!) hv))).resolve_left (by decide!)⟩

/-- C5: with a goal set and a start that passes the goal test, `GetGlobalPlan` (given
fuel for one turn of each loop) sets `Path` to the one-element sequence `[start]` and
changes nothing else. -/
theorem C5_start_at_goal_gives_singleton_path (E : Env S) (fuel : Nat) (pl : Planner S)
    (start : Vector2f S) (angle : S) (hset : pl.global_goal_set_ = true)
    (hstart : AtGoal E pl start = true) :
    GetGlobalPlan E (fuel + 1) pl start angle = .ok { pl with path_ := [start] } := by
  simp [GetGlobalPlan, hset, searchLoop, initialVars, SimpleQueue.Push, pushEntries,
    SimpleQueue.Empty, SimpleQueue.Pop, minEntry, hstart, walkBack]

/-- C5 at a concrete input: beside the wall, a start `(3/4, 0)` within the stop distance
of the goal `(1, 0)`. -/
theorem C5_start_at_goal_gives_singleton_path_witness :
    AtGoal envQ (plannerWith wallMap ⟨1, 0⟩) ⟨3 / 4, 0⟩ = true ∧
    GetGlobalPlan envQ 1 (plannerWith wallMap ⟨1, 0⟩) ⟨3 / 4, 0⟩ 0 =
      .ok { plannerWith wallMap ⟨1, 0⟩ with path_ := [⟨3 / 4, 0⟩] } :=
  ⟨by decide!,
    C5_start_at_goal_gives_singleton_path envQ 0 (plannerWith wallMap ⟨1, 0⟩) ⟨3 / 4, 0⟩ 0 rfl
      (by decide!)⟩

/-! ## Local goal -/

/-- What the scan loop computes: it stops at an index `k` between its start `i` and the
end of the waypoints, every waypoint it passed is within the lookahead radius, and the
waypoint it stops at, if there is one, is not. -/
theorem scanLoop_spec (E : Env S) (robot_mloc : Vector2f S) (ws : List (Vector2f S)) :
    ∀ i : Nat,
      i ≤ scanLoop E robot_mloc ws i ∧ scanLoop E robot_mloc ws i ≤ i + ws.length ∧
      (∀ j w, j < scanLoop E robot_mloc ws i - i → ws[j]? = some w →
        E.norm (w - robot_mloc) < E.CIRCLE_RADIUS) ∧
      (∀ w, ws[scanLoop E robot_mloc ws i - i]? = some w →
        ¬ E.norm (w - robot_mloc) < E.CIRCLE_RADIUS) := by
  induction ws with
  | nil => intro i; simp [scanLoop]
  | cons a rest ih =>
    intro i
    simp only [scanLoop]
    by_cases hin : E.norm (a - robot_mloc) < E.CIRCLE_RADIUS
    · rw [if_pos hin]
      obtain ⟨h1, h2, h3, h4⟩ := ih (i + 1)
      have hk : scanLoop E robot_mloc rest (i + 1) - i =
          (scanLoop E robot_mloc rest (i + 1) - (i + 1)) + 1 := by omega
      refine ⟨by omega, by simp only [List.length_cons]; omega, ?_, ?_⟩
      · intro j w hj hw
        cases j with
        | zero =>
          simp only [List.getElem?_cons_zero, Option.some.injEq] at hw
          rw [← hw]; exact hin
        | succ j =>
          simp only [List.getElem?_cons_succ] at hw
          exact h3 j w (by omega) hw
      · intro w hw
        rw [hk, List.getElem?_cons_succ] at hw
        exact h4 w hw
    · rw [if_neg hin]
      refine ⟨le_refl _, by omega, ?_, ?_⟩
      · intro j w hj; omega
      · intro w hw
        simp only [Nat.sub_self, List.getElem?_cons_zero, Option.some.injEq] at hw
        rw [← hw]; exact hin

/-- The scan of a path from cursor `i`: the waypoints from `i` up to the stopping index
are within the lookahead radius and the waypoint at the stopping index is not. -/
theorem scan_spec (E : Env S) (robot_mloc : Vector2f S) (path : List (Vector2f S)) (i : Nat) :
    i ≤ scan E robot_mloc path i ∧
    (∀ j w, i ≤ j → j < scan E robot_mloc path i → path[j]? = some w →
      E.norm (w - robot_mloc) < E.CIRCLE_RADIUS) ∧
    (∀ w, path[scan E robot_mloc path i]? = some w →
      ¬ E.norm (w - robot_mloc) < E.CIRCLE_RADIUS) := by
  obtain ⟨h1, _, h3, h4⟩ := scanLoop_spec E robot_mloc (path.drop i) i
  refine ⟨h1, ?_, ?_⟩
  · intro j w hij hj hw
    refine h3 (j - i) w (by unfold scan at hj; omega) ?_
    rw [List.getElem?_drop]
    have : i + (j - i) = j := by omega
    rw [this]; exact hw
  · intro w hw
    refine h4 w ?_
    rw [List.getElem?_drop]
    have : i + (scanLoop E robot_mloc (path.drop i) i - i) = scan E robot_mloc path i := by
      unfold scan; omega
    rw [this]; exact hw

/-- C10 (as stated it fails), on two concrete inputs whose norms are all taken along the
x axis.  In the five-waypoint scenario, cursor at the start, the first four waypoints
within the lookahead radius of the robot and the fifth outside, `GetLocalGoal` moves the
cursor to the index of the fifth waypoint but returns the fourth waypoint `(5/4, 0)`, not
the fifth `(3/2, 0)`.  And when the fourth waypoint lies at exactly the radius, the scan
stops there, at index 3, although the first waypoint whose distance exceeds the radius
is the fifth. -/
theorem C10_scenario_returns_fourth_waypoint :
    (scenarioPlanner.global_goal_set_ = true ∧ scenarioPlanner.path_start_idx = 0 ∧
      scenarioPlanner.path_.length = 5 ∧
      (scenarioPlanner.path_.take 4).all
        (fun w => decide (envQ.norm (w - ⟨1 / 2, 0⟩) < envQ.CIRCLE_RADIUS)) = true ∧
      scenarioPlanner.path_[4]? = some ⟨3 / 2, 0⟩ ∧
      envQ.CIRCLE_RADIUS < envQ.norm ((⟨3 / 2, 0⟩ : Vector2f ℚ) - ⟨1 / 2, 0⟩) ∧
      GetLocalGoal envQ 20 scenarioPlanner ⟨1 / 2, 0⟩ 0 =
        .ok (⟨5 / 4, 0⟩, { scenarioPlanner with path_start_idx := 4 }) ∧
      (⟨5 / 4, 0⟩ : Vector2f ℚ) ≠ ⟨3 / 2, 0⟩) ∧
    (boundaryPlanner.global_goal_set_ = true ∧ boundaryPlanner.path_start_idx = 0 ∧
      (boundaryPlanner.path_.take 4).all
        (fun w => decide (envQ.norm (w - ⟨1 / 8, 0⟩) ≤ envQ.CIRCLE_RADIUS)) = true ∧
      boundaryPlanner.path_[4]? = some ⟨5 / 4, 0⟩ ∧
      envQ.CIRCLE_RADIUS < envQ.norm ((⟨5 / 4, 0⟩ : Vector2f ℚ) - ⟨1 / 8, 0⟩) ∧
      GetLocalGoal envQ 20 boundaryPlanner ⟨1 / 8, 0⟩ 0 =
        .ok (⟨3 / 4, 0⟩, { boundaryPlanner with path_start_idx := 3 })) := by
  refine ⟨⟨rfl, rfl, rfl, ?_, ?_, ?_, ?_, ?_⟩, ⟨rfl, rfl, ?_, ?_, ?_, ?_⟩⟩ <;> decide!

/-- C10 (amended): with a goal set, when the scan from the cursor advances and stops at
a waypoint, `GetLocalGoal` stores the index of that waypoint, the first at or after the
cursor that is not within `CIRCLE_RADIUS` of the robot, in the cursor, and returns the
waypoint just before it, the last of the run of waypoints within the radius; no search
is run and `Path` is unchanged. -/
theorem C10_GetLocalGoal_returns_last_within_radius (E : Env S) (fuel : Nat) (pl : Planner S)
    (robot_mloc : Vector2f S) (robot_mangle : S) (hset : pl.global_goal_set_ = true)
    (hadvance : scan E robot_mloc pl.path_ pl.path_start_idx ≠ pl.path_start_idx)
    (hstop : scan E robot_mloc pl.path_ pl.path_start_idx < pl.path_.length)
    (hsize : pl.path_.length < 2 ^ 64) :
    ∃ target, pl.path_[scan E robot_mloc pl.path_ pl.path_start_idx - 1]? = some target ∧
      GetLocalGoal E fuel pl robot_mloc robot_mangle =
        .ok (target, { pl with path_start_idx := scan E robot_mloc pl.path_ pl.path_start_idx }) ∧
      pl.path_start_idx < scan E robot_mloc pl.path_ pl.path_start_idx ∧
      E.norm (target - robot_mloc) < E.CIRCLE_RADIUS ∧
      (∀ j w, pl.path_start_idx ≤ j → j < scan E robot_mloc pl.path_ pl.path_start_idx →
        pl.path_[j]? = some w → E.norm (w - robot_mloc) < E.CIRCLE_RADIUS) ∧
      (∀ w, pl.path_[scan E robot_mloc pl.path_ pl.path_start_idx]? = some w →
        ¬ E.norm (w - robot_mloc) < E.CIRCLE_RADIUS) := by
  obtain ⟨h1, h2, h3⟩ := scan_spec E robot_mloc pl.path_ pl.path_start_idx
  have hlt : pl.path_start_idx < scan E robot_mloc pl.path_ pl.path_start_idx :=
    lt_of_le_of_ne h1 (Ne.symm hadvance)
  have hidx : (scan E robot_mloc pl.path_ pl.path_start_idx + 2 ^ 64 - 1) % 2 ^ 64 =
      scan E robot_mloc pl.path_ pl.path_start_idx - 1 := by
    have : scan E robot_mloc pl.path_ pl.path_start_idx + 2 ^ 64 - 1 =
        (scan E robot_mloc pl.path_ pl.path_start_idx - 1) + 2 ^ 64 := by omega
    rw [this, Nat.add_mod_right]
    exact Nat.mod_eq_of_lt (by omega)
  have hin : scan E robot_mloc pl.path_ pl.path_start_idx - 1 < pl.path_.length := by omega
  refine ⟨pl.path_[scan E robot_mloc pl.path_ pl.path_start_idx - 1], ?_, ?_, hlt, ?_, h2, h3⟩
  · exact List.getElem?_eq_getElem hin
  · unfold GetLocalGoal
    simp only [hset, Bool.not_true, Bool.false_eq_true, if_false, if_neg hadvance]
    unfold returnLocalGoal
    rw [hidx, List.getElem?_eq_getElem hin]
    simp [hset]
  · exact h2 _ _ (by omega) (by omega) (List.getElem?_eq_getElem hin)

/-- C10 (amended) at a concrete input: the five-waypoint scenario, where the target is
the fourth waypoint and the cursor becomes 4, the index of the fifth. -/
theorem C10_GetLocalGoal_returns_last_within_radius_witness :
    scan envQ ⟨1 / 2, 0⟩ scenarioPlanner.path_ scenarioPlanner.path_start_idx = 4 ∧
    ∃ target, scenarioPlanner.path_[scan envQ ⟨1 / 2, 0⟩ scenarioPlanner.path_
        scenarioPlanner.path_start_idx - 1]? = some target ∧
      GetLocalGoal envQ 0 scenarioPlanner ⟨1 / 2, 0⟩ 0 =
        .ok (target, { scenarioPlanner with
          path_start_idx := scan envQ ⟨1 / 2, 0⟩ scenarioPlanner.path_
            scenarioPlanner.path_start_idx }) :=
  ⟨by decide!,
    (C10_GetLocalGoal_returns_last_within_radius envQ 0 scenarioPlanner ⟨1 / 2, 0⟩ 0 rfl
      (by decide!) (by decide!) (by decide!)).imp (fun _ h => ⟨h.1, h.2.1⟩)⟩

/-! ## The neighbor generator against its specification -/

/-- On at least one line the inner loop leaves `distance` above half the clearance
exactly when every line is farther than half the clearance. -/
theorem lastDistance_cons_iff (E : Env S) (loc next : Vector2f S) (rest : List (line2f S)) :
    ∀ (a : line2f S) (d : S), E.CAR_WIDTH_SAFE / 2 < lastDistance E loc next (a :: rest) d ↔
      ∀ l ∈ a :: rest, E.CAR_WIDTH_SAFE / 2 < E.MinDistanceLineLine l.p0 l.p1 loc next := by
  induction rest with
  | nil =>
    intro a d
    simp only [lastDistance, List.mem_singleton, forall_eq]
    by_cases hc : E.MinDistanceLineLine a.p0 a.p1 loc next ≤ E.CAR_WIDTH_SAFE / 2
    · rw [if_pos hc]
    · rw [if_neg hc]
  | cons b rest ih =>
    intro a d
    rw [lastDistance]
    by_cases hc : E.MinDistanceLineLine a.p0 a.p1 loc next ≤ E.CAR_WIDTH_SAFE / 2
    · simp only [if_pos hc]
      constructor
      · intro h; exact absurd h (not_lt.mpr hc)
      · intro h; exact h a (List.mem_cons_self _ _)
    · simp only [if_neg hc]
      rw [ih b]
      constructor
      · intro h l hl
        rcases List.mem_cons.mp hl with rfl | hl
        · exact not_le.mp hc
        · exact h l hl
      · intro h l hl
        exact h l (List.mem_cons_of_mem _ hl)

/-- The outer loop appends the accepted destinations in the order of the offsets. -/
theorem neighborsLoop_eq (E : Env S) (pl : Planner S) (loc : Vector2f S)
    (offsets : List (Vector2f S)) :
    ∀ neighbors, neighborsLoop E pl loc offsets neighbors =
      neighbors ++ (offsets.filter (fun o =>
        decide (E.CAR_WIDTH_SAFE / 2 < lastDistance E loc (loc + o) pl.map_.lines 0))).map
          (fun o => loc + o) := by
  induction offsets with
  | nil => intro neighbors; simp [neighborsLoop]
  | cons a rest ih =>
    intro neighbors
    simp only [neighborsLoop]
    by_cases hc : E.CAR_WIDTH_SAFE / 2 < lastDistance E loc (loc + a) pl.map_.lines 0
    · rw [if_pos hc, ih, List.filter_cons_of_pos (by simpa using hc)]
      simp
    · rw [if_neg hc, ih, List.filter_cons_of_neg (by simpa using hc)]

/-- On a map with at least one obstacle segment `Neighbors_` returns the list the
specification describes. -/
theorem Neighbors_eq_spec_of_lines (E : Env S) (pl : Planner S) (loc : Vector2f S)
    (hmap : pl.map_.lines ≠ []) : Neighbors_ E pl loc [] = NeighborsSpec E pl loc := by
  unfold Neighbors_ NeighborsSpec
  rw [neighborsLoop_eq, List.nil_append]
  congr 1
  apply List.filter_congr
  intro o _
  cases hl : pl.map_.lines with
  | nil => exact absurd hl hmap
  | cons a rest =>
    rw [Bool.eq_iff_iff]
    simp only [decide_eq_true_eq, List.all_eq_true]
    exact lastDistance_cons_iff E loc (loc + o) rest a 0

/-- The second five-waypoint state is the one `GetGlobalPlan` produces beside the wall
from `(1/4, 0)` towards the goal `(3/2, 0)`. -/
theorem boundaryPlanner_planned :
    GetGlobalPlan envQ 20 (plannerWith wallMap ⟨3 / 2, 0⟩) ⟨1 / 4, 0⟩ 0 = .ok boundaryPlanner := by
  decide!

/-! ## The search reads goal, lattice and map only -/

/-- With a goal set and a scan that does not advance, `GetLocalGoal` searches from the
pose, and after a search that returns it scans the new `Path` from the old cursor on. -/
theorem GetLocalGoal_replan (E : Env S) (fuel : Nat) (pl replanned : Planner S)
    (robot_mloc : Vector2f S) (robot_mangle : S) (hset : pl.global_goal_set_ = true)
    (hstuck : scan E robot_mloc pl.path_ pl.path_start_idx = pl.path_start_idx)
    (hplan : GetGlobalPlan E fuel pl robot_mloc robot_mangle = .ok replanned) :
    GetLocalGoal E fuel pl robot_mloc robot_mangle =
      returnLocalGoal { replanned with path_start_idx := 0 }
        (scan E robot_mloc replanned.path_ pl.path_start_idx) := by
  unfold GetLocalGoal
  simp only [hset, Bool.not_true, Bool.false_eq_true, if_false, hstuck, if_true, hplan]

/-- With a goal set and a scan that does not advance, the specification of the
replanning branch searches from the pose and scans the new `Path` from index zero. -/
theorem GetLocalGoalSpec_replan (E : Env S) (fuel : Nat) (pl replanned : Planner S)
    (robot_mloc : Vector2f S) (robot_mangle : S) (hset : pl.global_goal_set_ = true)
    (hstuck : scan E robot_mloc pl.path_ pl.path_start_idx = pl.path_start_idx)
    (hplan : GetGlobalPlan E fuel pl robot_mloc robot_mangle = .ok replanned) :
    GetLocalGoalSpec E fuel pl robot_mloc robot_mangle =
      returnLocalGoal { replanned with path_start_idx := 0 }
        (scan E robot_mloc replanned.path_ 0) := by
  unfold GetLocalGoalSpec
  simp only [hset, Bool.not_true, Bool.false_eq_true, if_false, hstuck, if_true, hplan]

/-! ## Concrete runs beside the wall -/

/-- Beside the wall the search from the origin towards `(7/4, 0)` builds the seven-point
route. -/
theorem walledPlanner_planned :
    GetGlobalPlan envR 40 walledPlanner ⟨0, 0⟩ 0 = .ok { walledPlanner with path_ := route7 } := by
  decide!

/-- Beside the wall the search from `(1/4, 0)` towards `(7/4, 0)` builds the six-point
route. -/
theorem afterSecondCall_planned :
    GetGlobalPlan envR 40 afterSecondCall ⟨1 / 4, 0⟩ 0 =
      .ok { afterSecondCall with path_ := route6 } := by
  decide!

/-- The first two calls beside the wall: from the fresh planner a call at the origin
plans the seven-point route and leaves the cursor at 4; a call at `(1/4, 0)` advances
the cursor to 5 without a search. -/
theorem afterSecondCall_reached :
    GetLocalGoal envR 40 walledPlanner ⟨0, 0⟩ 0 = .ok (⟨3 / 4, 0⟩, afterFirstCall) ∧
    GetLocalGoal envR 40 afterFirstCall ⟨1 / 4, 0⟩ 0 = .ok (⟨1, 0⟩, afterSecondCall) := by
  constructor
  · rw [GetLocalGoal_replan envR 40 walledPlanner _ ⟨0, 0⟩ 0 rfl (by decide!)
      walledPlanner_planned]
    decide!
  · decide!

/-- The third call beside the wall, at `(1/4, 0)` again: no waypoint to advance over, a
search from the pose, and a scan of the six-point route from the old cursor 5. -/
theorem afterSecondCall_third_call :
    GetLocalGoal envR 40 afterSecondCall ⟨1 / 4, 0⟩ 0 =
      .ok (⟨5 / 4, 0⟩, { afterSecondCall with path_ := route6 }) := by
  rw [GetLocalGoal_replan envR 40 afterSecondCall _ ⟨1 / 4, 0⟩ 0 rfl (by decide!)
    afterSecondCall_planned]
  decide!

/-- C12 (the code departs from the claim): beside the wall, with the goal `(7/4, 0)`, a
first `GetLocalGoal` call at the origin plans seven waypoints and leaves the cursor at 4.
A next call at `(2, 0)`, where the goal test already holds, replans to the one-point
`Path` `[(2, 0)]`, keeps scanning from index 4, stores the cursor 4 and reads `path_[3]`
outside the vector; a direct `GetGlobalPlan` call at `(2, 0)` returns normally with the
cursor 4 above the `Path` size 1.  Without any map the same happens with the calls at
`(3/2, 0)` and then at the origin: cursor 1 on an empty `Path`. -/
theorem C12_cursor_exceeds_path_size :
    (GetLocalGoal envR 40 walledPlanner ⟨0, 0⟩ 0 = .ok (⟨3 / 4, 0⟩, afterFirstCall) ∧
      GetLocalGoal envR 40 afterFirstCall ⟨2, 0⟩ 0 =
        .error (.bad_index { afterFirstCall with path_ := [⟨2, 0⟩], path_start_idx := 4 }) ∧
      GetGlobalPlan envR 40 afterFirstCall ⟨2, 0⟩ 0 =
        .ok { afterFirstCall with path_ := [⟨2, 0⟩] } ∧
      ¬ afterFirstCall.path_start_idx ≤ ([⟨2, 0⟩] : List (Vector2f ℚ)).length) ∧
    (GetLocalGoal envR 40 (SetGlobalGoal (Planner.Planner envR) ⟨7 / 4, 0⟩ 0) ⟨3 / 2, 0⟩ 0 =
        .ok (⟨3 / 2, 0⟩, { SetGlobalGoal (Planner.Planner envR) ⟨7 / 4, 0⟩ 0 with
          path_ := [⟨3 / 2, 0⟩], path_start_idx := 1 }) ∧
      GetLocalGoal envR 40 { SetGlobalGoal (Planner.Planner envR) ⟨7 / 4, 0⟩ 0 with
          path_ := [⟨3 / 2, 0⟩], path_start_idx := 1 } ⟨0, 0⟩ 0 =
        .error (.bad_index { SetGlobalGoal (Planner.Planner envR) ⟨7 / 4, 0⟩ 0 with
          path_ := [], path_start_idx := 1 })) :=
  ⟨⟨afterSecondCall_reached.1, by decide!, by decide!, by decide!⟩, by decide!, by decide!⟩

/-- With a goal set, when the scan does not advance and the search leaves `Path` empty,
the final read `path_[path_start_idx - 1]` of `GetLocalGoal` is outside the vector,
whatever the cursor. -/
theorem GetLocalGoal_empty_replan (E : Env S) (fuel : Nat) (pl replanned : Planner S)
    (robot_mloc : Vector2f S) (robot_mangle : S) (hset : pl.global_goal_set_ = true)
    (hstuck : scan E robot_mloc pl.path_ pl.path_start_idx = pl.path_start_idx)
    (hplan : GetGlobalPlan E fuel pl robot_mloc robot_mangle = .ok replanned)
    (hempty : replanned.path_ = []) :
    GetLocalGoal E fuel pl robot_mloc robot_mangle =
      .error (.bad_index { replanned with path_start_idx := pl.path_start_idx }) := by
  rw [GetLocalGoal_replan E fuel pl replanned robot_mloc robot_mangle hset hstuck hplan]
  unfold returnLocalGoal
  simp [hempty, scan, scanLoop]

/-- Inside the closed ring the search from the origin towards `(2, 0)` exhausts the
frontier and leaves `Path` empty. -/
theorem freshRingPlanner_planned :
    GetGlobalPlan envR 20 freshRingPlanner ⟨0, 0⟩ 0 = .ok freshRingPlanner := by
  decide!

/-- C15 (the code departs from the claim): inside the closed ring, with the goal
`(2, 0)` outside of it, the first `GetLocalGoal` call at the origin searches, the search
exhausts the frontier and leaves `Path` empty, and the call then reads `path_[0 - 1]`,
index `2 ^ 64 - 1` of an empty vector. -/
theorem C15_empty_replan_reads_out_of_range :
    freshRingPlanner.global_goal_set_ = true ∧
    GetGlobalPlan envR 20 freshRingPlanner ⟨0, 0⟩ 0 = .ok freshRingPlanner ∧
    freshRingPlanner.path_ = [] ∧ (0 + 2 ^ 64 - 1) % 2 ^ 64 = 2 ^ 64 - 1 ∧
    GetLocalGoal envR 20 freshRingPlanner ⟨0, 0⟩ 0 = .error (.bad_index freshRingPlanner) :=
  ⟨rfl, freshRingPlanner_planned, rfl, by decide,
    GetLocalGoal_empty_replan envR 20 freshRingPlanner freshRingPlanner ⟨0, 0⟩ 0 rfl
      (by decide!) freshRingPlanner_planned rfl⟩

/-- C16 (the code departs from the claim): beside the wall, in the state with the
seven-point route and the cursor at 5, a call at `(1/4, 0)` makes no forward progress
and replans to the six-point route.  The claim repeats the scan from index zero: cursor
4 and target `(1, 0)`.  The code keeps scanning from the old cursor 5: cursor 5 and
target `(5/4, 0)`. -/
theorem C16_second_scan_continues_from_old_cursor :
    afterSecondCall.global_goal_set_ = true ∧
    scan envR ⟨1 / 4, 0⟩ afterSecondCall.path_ afterSecondCall.path_start_idx =
      afterSecondCall.path_start_idx ∧
    GetGlobalPlan envR 40 afterSecondCall ⟨1 / 4, 0⟩ 0 =
      .ok { afterSecondCall with path_ := route6 } ∧
    GetLocalGoalSpec envR 40 afterSecondCall ⟨1 / 4, 0⟩ 0 =
      .ok (⟨1, 0⟩, { afterSecondCall with path_ := route6, path_start_idx := 4 }) ∧
    GetLocalGoal envR 40 afterSecondCall ⟨1 / 4, 0⟩ 0 =
      .ok (⟨5 / 4, 0⟩, { afterSecondCall with path_ := route6, path_start_idx := 5 }) := by
  refine ⟨rfl, by decide!, afterSecondCall_planned, ?_, afterSecondCall_third_call⟩
  rw [GetLocalGoalSpec_replan envR 40 afterSecondCall _ ⟨1 / 4, 0⟩ 0 rfl (by decide!)
    afterSecondCall_planned]
  decide!

/-- From cursor zero the code and the specification of the replanning branch agree: the
departure of C16 needs a cursor above zero. -/
theorem GetLocalGoal_eq_spec_at_cursor_zero (E : Env S) (fuel : Nat) (pl : Planner S)
    (robot_mloc : Vector2f S) (robot_mangle : S) (hcursor : pl.path_start_idx = 0) :
    GetLocalGoal E fuel pl robot_mloc robot_mangle =
      GetLocalGoalSpec E fuel pl robot_mloc robot_mangle := by
  unfold GetLocalGoal GetLocalGoalSpec
  simp only [hcursor]
  by_cases h : scan E robot_mloc pl.path_ 0 = 0
  · simp only [h, if_true]
  · simp only [if_neg h]

/-! ## Visualization -/

omit [LinearOrderedField S] in
/-- While the loop of `VisualizePath` stays inside the vector it appends one line per
consecutive pair: with `remaining` iterations to run from index `i`, and at least
`remaining + 1` points from `i` on, it appends the lines of the first `remaining` pairs
of `path.drop i`. -/
theorem drawLoop_in_range (path : List (Vector2f S)) (remaining : Nat) :
    ∀ (i : Nat) (msg : List (Primitive S)), i + remaining + 1 ≤ path.length →
      drawLoop path remaining i msg = some (msg ++
        (List.zipWith (fun p0 p1 => Primitive.line p0 p1 0x000000) (path.drop i)
          (path.drop (i + 1))).take remaining) := by
  induction remaining with
  | zero => intro i msg _; simp [drawLoop]
  | succ n ih =>
    intro i msg hlen
    have h0 : i < path.length := by omega
    have h1 : i + 1 < path.length := by omega
    rw [drawLoop, List.getElem?_eq_getElem h0, List.getElem?_eq_getElem h1]
    simp only
    rw [ih (i + 1) _ (by omega)]
    congr 1
    rw [List.append_assoc]
    congr 1
    rw [List.drop_eq_getElem_cons h0, List.drop_eq_getElem_cons h1]
    simp [List.zipWith, List.take]

/-- On a non-empty `Path` (of fewer than `2 ^ 64` points) with a goal set the code draws
what the specification describes: one line per consecutive pair and the marker. -/
theorem VisualizePath_eq_spec_of_nonempty (pl : Planner S) (msg : List (Primitive S))
    (hne : pl.path_ ≠ []) (hsize : pl.path_.length < 2 ^ 64) :
    VisualizePath pl msg = .ok (VisualizeSpec pl msg) := by
  unfold VisualizePath VisualizeSpec
  cases hset : pl.global_goal_set_ with
  | false => simp
  | true =>
    simp only [Bool.not_true, Bool.false_eq_true, if_false]
    have hpos : 0 < pl.path_.length := List.length_pos.mpr hne
    have hbound : (pl.path_.length + 2 ^ 64 - 1) % 2 ^ 64 = pl.path_.length - 1 := by
      have : pl.path_.length + 2 ^ 64 - 1 = (pl.path_.length - 1) + 2 ^ 64 := by omega
      rw [this, Nat.add_mod_right]
      exact Nat.mod_eq_of_lt (by omega)
    rw [hbound, drawLoop_in_range pl.path_ (pl.path_.length - 1) 0 msg (by omega)]
    simp only [List.drop_zero, Nat.zero_add, List.drop_one]
    rw [List.take_of_length_le]
    simp only [List.length_zipWith, List.length_tail]
    omega

/-- Without a goal `VisualizePath` appends nothing, as the specification says. -/
theorem VisualizePath_without_goal (pl : Planner S) (msg : List (Primitive S))
    (hset : pl.global_goal_set_ = false) :
    VisualizePath pl msg = .ok msg ∧ VisualizeSpec pl msg = msg := by
  unfold VisualizePath VisualizeSpec
  simp [hset]

/-- C14 (the code departs from the claim): with a goal set and an empty `Path`, the
state right after `SetGlobalGoal` on a new planner, the claim draws no line and the
marker.  The code computes the loop bound `0 - 1` as `2 ^ 64 - 1`, enters the loop and
reads `path_[0]` and `path_[1]` of the empty vector. -/
theorem C14_empty_path_draw_reads_out_of_range :
    (SetGlobalGoal (Planner.Planner envR) ⟨7 / 4, 0⟩ 0).global_goal_set_ = true ∧
    (SetGlobalGoal (Planner.Planner envR) ⟨7 / 4, 0⟩ 0).path_ = [] ∧
    ((SetGlobalGoal (Planner.Planner envR) ⟨7 / 4, 0⟩ 0).path_.length + 2 ^ 64 - 1) % 2 ^ 64 =
      2 ^ 64 - 1 ∧
    VisualizeSpec (SetGlobalGoal (Planner.Planner envR) ⟨7 / 4, 0⟩ 0) [] =
      [Primitive.cross ⟨7 / 4, 0⟩ (3 / 10) 0xFF0000] ∧
    VisualizePath (SetGlobalGoal (Planner.Planner envR) ⟨7 / 4, 0⟩ 0) [] =
      .error (.bad_index (SetGlobalGoal (Planner.Planner envR) ⟨7 / 4, 0⟩ 0)) := by
  refine ⟨rfl, rfl, ?_, ?_, ?_⟩ <;> decide!

/-! ## Heuristic and edge cost with the arithmetic of `float` -/

/-- In exact arithmetic, for a norm with the laws of a vector norm, the heuristic is
consistent with the edge cost: for every goal, all locations `p`, `q` and every
accumulated cost `c`, `GetHeuristic_ p ≤ (GetCost_ q p c - c) + GetHeuristic_ q`, where
`GetCost_ q p c - c` is the distance between `p` and `q`, so that `GetCost_ q p c ≥ c`;
the heuristic is zero at the goal location; and `g + h` does not decrease from a state to
its successor. -/
theorem heuristic_consistent_exact (E : Env S) (pl : Planner S) (hnorm : NormLaws E)
    (p q : Vector2f S) (c : S) :
    GetHeuristic_ E pl p ≤ (GetCost_ E q p c - c) + GetHeuristic_ E pl q ∧
    GetCost_ E q p c - c = E.norm (p - q) ∧
    c ≤ GetCost_ E q p c ∧
    GetHeuristic_ E pl pl.global_goal_mloc_ = 0 ∧
    c + GetHeuristic_ E pl p ≤ GetCost_ E q p c + GetHeuristic_ E pl q := by
  have htri : E.norm (pl.global_goal_mloc_ - p) ≤
      E.norm (p - q) + E.norm (pl.global_goal_mloc_ - q) := by
    have h := hnorm.triangle pl.global_goal_mloc_ q p
    rw [hnorm.symm q p] at h
    linarith
  have hpos := hnorm.nonneg (p - q)
  unfold GetHeuristic_ GetCost_
  refine ⟨by linarith, by ring, by linarith, hnorm.self _, by linarith⟩

/-- The Euclidean norm over the reals has the laws of a vector norm. -/
theorem euclidean_NormLaws (E : Env ℝ)
    (hE : ∀ v, E.norm v = Real.sqrt (v.x * v.x + v.y * v.y)) : NormLaws E := by
  have habs : ∀ v : Vector2f ℝ, E.norm v = Complex.abs ⟨v.x, v.y⟩ := by
    intro v
    rw [hE, Complex.abs_apply, Complex.normSq_mk]
  refine ⟨?_, ?_, ?_, ?_⟩
  · intro v
    rw [hE]
    exact Real.sqrt_nonneg _
  · intro v
    rw [hE]
    show Real.sqrt ((v.x - v.x) * (v.x - v.x) + (v.y - v.y) * (v.y - v.y)) = 0
    simp
  · intro u v
    rw [hE, hE]
    show Real.sqrt ((u.x - v.x) * (u.x - v.x) + (u.y - v.y) * (u.y - v.y)) =
      Real.sqrt ((v.x - u.x) * (v.x - u.x) + (v.y - u.y) * (v.y - u.y))
    congr 1
    ring
  · intro u v w
    rw [habs, habs, habs]
    have h := Complex.abs.sub_le (⟨u.x, u.y⟩ : ℂ) ⟨v.x, v.y⟩ ⟨w.x, w.y⟩
    have e : ∀ a b : Vector2f ℝ,
        (⟨(a - b).x, (a - b).y⟩ : ℂ) = (⟨a.x, a.y⟩ : ℂ) - ⟨b.x, b.y⟩ := by
      intro a b
      apply Complex.ext <;> rfl
    rw [e, e, e]
    exact h

/-- Consistency in exact arithmetic for the Euclidean norm over the reals, at the goal
`(7/4, 0)`, from `(0, 0)` to the diagonal neighbor `(1/4, 1/4)`, with accumulated cost 1. -/
theorem heuristic_consistent_exact_euclidean :
    GetHeuristic_ (⟨1 / 4, 1 / 2, 1 / 2, 7 / 8,
        fun v => Real.sqrt (v.x * v.x + v.y * v.y), fun _ _ _ _ => 0⟩ : Env ℝ)
      (SetGlobalGoal (Planner.Planner (⟨1 / 4, 1 / 2, 1 / 2, 7 / 8,
        fun v => Real.sqrt (v.x * v.x + v.y * v.y), fun _ _ _ _ => 0⟩ : Env ℝ)) ⟨7 / 4, 0⟩ 0)
      ⟨0, 0⟩ ≤
    (GetCost_ (⟨1 / 4, 1 / 2, 1 / 2, 7 / 8,
        fun v => Real.sqrt (v.x * v.x + v.y * v.y), fun _ _ _ _ => 0⟩ : Env ℝ)
      ⟨1 / 4, 1 / 4⟩ ⟨0, 0⟩ 1 - 1) +
    GetHeuristic_ (⟨1 / 4, 1 / 2, 1 / 2, 7 / 8,
        fun v => Real.sqrt (v.x * v.x + v.y * v.y), fun _ _ _ _ => 0⟩ : Env ℝ)
      (SetGlobalGoal (Planner.Planner (⟨1 / 4, 1 / 2, 1 / 2, 7 / 8,
        fun v => Real.sqrt (v.x * v.x + v.y * v.y), fun _ _ _ _ => 0⟩ : Env ℝ)) ⟨7 / 4, 0⟩ 0)
      ⟨1 / 4, 1 / 4⟩ :=
  (heuristic_consistent_exact _ _ (euclidean_NormLaws _ (fun _ => rfl)) ⟨0, 0⟩ ⟨1 / 4, 1 / 4⟩ 1).1

/-- The sup norm of the concrete environment `envQ` has the laws of a vector norm. -/
theorem envQ_NormLaws : NormLaws envQ := by
  refine ⟨?_, ?_, ?_, ?_⟩
  · intro v
    exact le_max_of_le_left (abs_nonneg _)
  · intro v
    show max |v.x - v.x| |v.y - v.y| = 0
    simp
  · intro u v
    show max |u.x - v.x| |u.y - v.y| = max |v.x - u.x| |v.y - u.y|
    rw [abs_sub_comm u.x, abs_sub_comm u.y]
  · intro u v w
    show max |u.x - w.x| |u.y - w.y| ≤
      max |u.x - v.x| |u.y - v.y| + max |v.x - w.x| |v.y - w.y|
    apply max_le
    · calc |u.x - w.x| ≤ |u.x - v.x| + |v.x - w.x| := abs_sub_le _ _ _
        _ ≤ _ := add_le_add (le_max_left _ _) (le_max_left _ _)
    · calc |u.y - w.y| ≤ |u.y - v.y| + |v.y - w.y| := abs_sub_le _ _ _
        _ ≤ _ := add_le_add (le_max_right _ _) (le_max_right _ _)

/-! ## One frontier entry per location -/

/-- The locations queued after a push: the same as before when the pushed location was
queued already, one more at the end otherwise. -/
theorem pushEntries_keys (v : SearchState S) (p : S) (entries : List (SearchState S × S)) :
    (pushEntries v p entries).1.map (fun e => e.1.curr_loc) =
      if v.curr_loc ∈ entries.map (fun e => e.1.curr_loc) then
        entries.map (fun e => e.1.curr_loc)
      else entries.map (fun e => e.1.curr_loc) ++ [v.curr_loc] := by
  induction entries with
  | nil => simp [pushEntries]
  | cons a rest ih =>
    simp only [pushEntries]
    by_cases h1 : a.1.curr_loc = v.curr_loc
    · rw [if_pos h1]
      have hin : v.curr_loc ∈ (a :: rest).map (fun e => e.1.curr_loc) := by
        simp [h1]
      rw [if_pos hin]
      by_cases h2 : p < a.2
      · rw [if_pos h2]
        simp [h1]
      · rw [if_neg h2]
    · rw [if_neg h1]
      simp only [List.map_cons, ih, List.mem_cons]
      have hne : ¬ v.curr_loc = a.1.curr_loc := fun e => h1 e.symm
      by_cases h3 : v.curr_loc ∈ rest.map (fun e => e.1.curr_loc)
      · simp [h3]
      · simp [h3, hne]

/-- A push keeps the queued locations free of repetition. -/
theorem pushEntries_nodup (v : SearchState S) (p : S) (entries : List (SearchState S × S))
    (h : (entries.map (fun e => e.1.curr_loc)).Nodup) :
    ((pushEntries v p entries).1.map (fun e => e.1.curr_loc)).Nodup := by
  rw [pushEntries_keys]
  split_ifs with hin
  · exact h
  · apply List.Nodup.append h (List.nodup_singleton _)
    intro x hx hx'
    rw [List.mem_singleton] at hx'
    exact hin (hx' ▸ hx)

/-- After a pop from a queue with one entry per location, no entry left has the popped
location, and the queue still has one entry per location. -/
theorem Pop_keys (q q' : SimpleQueue S) (v : SearchState S)
    (hnodup : (q.values_.map (fun e => e.1.curr_loc)).Nodup) (h : q.Pop = some (v, q')) :
    (∀ e ∈ q'.values_, e.1.curr_loc ≠ v.curr_loc) ∧
      (q'.values_.map (fun e => e.1.curr_loc)).Nodup := by
  unfold SimpleQueue.Pop at h
  cases hq : q.values_ with
  | nil => rw [hq] at h; cases h
  | cons a rest =>
    rw [hq] at h hnodup
    simp only [Option.some.injEq, Prod.mk.injEq] at h
    obtain ⟨hv, hq'⟩ := h
    have hmem := minEntry_mem rest a
    have hnd : (a :: rest).Nodup := List.Nodup.of_map _ hnodup
    constructor
    · intro e he hkey
      rw [← hq'] at he
      have he' := (List.Nodup.mem_erase_iff hnd).mp he
      apply he'.1
      apply List.inj_on_of_nodup_map hnodup he'.2 hmem
      rw [hkey, ← hv]
    · rw [← hq']
      exact List.Nodup.sublist ((List.erase_sublist _ _).map _) hnodup

/-! ## Visit order -/

/-- Assigning a parent to a location outside a list keeps the list in visit order. -/
theorem Ordered_assign (parents : List (Vector2f S × Vector2f S))
    (start next current : Vector2f S) (l : List (Vector2f S)) :
    next ∉ l → Ordered parents start l →
      Ordered (insert_or_assign parents next current) start l := by
  induction l with
  | nil => intro _ _; trivial
  | cons v older ih =>
    intro hnext hord
    obtain ⟨hv, hrest⟩ := hord
    have hne : ¬ next = v := fun e => hnext (e ▸ List.mem_cons_self _ _)
    refine ⟨?_, ih (fun h => hnext (List.mem_cons_of_mem _ h)) hrest⟩
    rcases hv with hv | ⟨p, hp, hmem⟩
    · exact Or.inl hv
    · exact Or.inr ⟨p, by rw [parentsAt_insert_or_assign, if_neg hne]; exact hp, hmem⟩

/-- In a list in visit order every location can be walked back to the start with fuel
equal to the length of the list: `parents.at` finds every key and the walk ends. -/
theorem walkBack_of_Ordered (parents : List (Vector2f S × Vector2f S)) (start : Vector2f S)
    (l : List (Vector2f S)) :
    Ordered parents start l → ∀ c ∈ l, ∀ fuel, l.length ≤ fuel → ∀ path,
      ∃ r, walkBack start parents fuel c path = some (.ok r) := by
  induction l with
  | nil => intro _ c hc; cases hc
  | cons v older ih =>
    intro hord c hc fuel hfuel path
    obtain ⟨hv, hrest⟩ := hord
    simp only [List.length_cons] at hfuel
    rcases List.mem_cons.mp hc with rfl | hc
    · obtain ⟨n, rfl⟩ : ∃ n, fuel = n + 1 := ⟨fuel - 1, by omega⟩
      simp only [walkBack]
      by_cases hs : c ≠ start
      · rw [if_pos hs]
        rcases hv with hv | ⟨p, hp, hmem⟩
        · exact absurd hv hs
        · rw [hp]
          exact ih hrest p hmem n (by omega) (p :: path)
      · rw [if_neg hs]
        exact ⟨path, rfl⟩
    · exact ih hrest c hc fuel (by omega) path

/-- In a repetition-free list in visit order every location other than the start has a
parent entry, and the parent was visited strictly before it. -/
theorem Ordered_parent_before (parents : List (Vector2f S × Vector2f S)) (start : Vector2f S)
    (l : List (Vector2f S)) :
    Ordered parents start l → l.Nodup → ∀ v ∈ l, v ≠ start →
      ∃ p newer older, parentsAt parents v = some p ∧ l = newer ++ v :: older ∧
        p ∈ older ∧ v ∉ older := by
  induction l with
  | nil => intro _ _ v hv; cases hv
  | cons a rest ih =>
    intro hord hnd v hv hne
    obtain ⟨ha, hrest⟩ := hord
    rw [List.nodup_cons] at hnd
    rcases List.mem_cons.mp hv with rfl | hv
    · rcases ha with ha | ⟨p, hp, hmem⟩
      · exact absurd ha hne
      · exact ⟨p, [], rest, hp, rfl, hmem, hnd.1⟩
    · obtain ⟨p, newer, older, hp, hl, hmem, hnot⟩ := ih hrest hnd.2 v hv hne
      exact ⟨p, a :: newer, older, hp, by rw [hl]; rfl, hmem, hnot⟩

/-! ## The search loop keeps its second invariant -/

/-- The second invariant on entry to the search loop. -/
theorem SearchInv2_initial (start : Vector2f S) (Good : Vector2f S → Prop)
    (hgood : Good start) :
    SearchInv2 start Good (initialVars start).frontier (initialVars start).visited
      (initialVars start).parents := by
  refine ⟨?_, ?_, ?_, ?_, ?_, ?_, ?_, ?_⟩
  · simp [initialVars, SimpleQueue.Push, pushEntries]
  · intro e _ h
    simp [initialVars] at h
  · intro e he
    simp only [initialVars, SimpleQueue.Push, pushEntries, List.mem_singleton] at he
    rw [he]
    exact hgood
  · simp [initialVars]
  · intro v hv
    simp [initialVars] at hv
  · simp [initialVars, Ordered]
  · right
    intro e he
    simp only [initialVars, SimpleQueue.Push, pushEntries, List.mem_singleton] at he
    rw [he]
  · simp [initialVars, parentsAt]

/-- The `for` loop over the neighbors keeps the second invariant, once the start is
visited. -/
theorem expandLoop_inv2 (E : Env S) (pl : Planner S) (start current : Vector2f S)
    (Good : Vector2f S → Prop) (curr_cost : S) (visited : List (Vector2f S))
    (hstart : start ∈ visited) (ns : List (Vector2f S)) :
    ∀ acc : SimpleQueue S × List (Vector2f S × Vector2f S),
      (∀ n ∈ ns, Good n) →
      SearchInv2 start Good acc.1 visited acc.2 →
      SearchInv2 start Good (expandLoop E pl current curr_cost visited ns acc).1 visited
        (expandLoop E pl current curr_cost visited ns acc).2 := by
  induction ns with
  | nil => intro acc _ h; exact h
  | cons next rest ih =>
    intro acc hns hinv
    have hrest : ∀ n ∈ rest, Good n := fun n hn => hns n (List.mem_cons_of_mem _ hn)
    simp only [expandLoop]
    by_cases hvis : next ∈ visited
    · rw [if_pos hvis]
      exact ih acc hrest hinv
    · rw [if_neg hvis]
      have hfront : ∀ e ∈ (acc.1.Push ⟨next, GetCost_ E next current curr_cost⟩
          (GetCost_ E next current curr_cost + GetHeuristic_ E pl next)).1.values_,
          e.1.curr_loc ∉ visited ∧ Good e.1.curr_loc := by
        intro e he
        rcases pushEntries_mem _ _ _ e he with h | h
        · exact ⟨hinv.keys_fresh e h, hinv.keys_good e h⟩
        · rw [h]
          exact ⟨hvis, hns next (List.mem_cons_self _ _)⟩
      have hnodup := pushEntries_nodup ⟨next, GetCost_ E next current curr_cost⟩
        (GetCost_ E next current curr_cost + GetHeuristic_ E pl next) acc.1.values_
        hinv.keys_nodup
      have hne : ¬ next = start := fun e => hvis (e ▸ hstart)
      by_cases hpush : (acc.1.Push ⟨next, GetCost_ E next current curr_cost⟩
          (GetCost_ E next current curr_cost + GetHeuristic_ E pl next)).2 = true
      · rw [if_pos hpush]
        apply ih _ hrest
        refine ⟨hnodup, fun e he => (hfront e he).1, fun e he => (hfront e he).2,
          hinv.visited_nodup, hinv.visited_good, ?_, Or.inl hstart, ?_⟩
        · exact Ordered_assign acc.2 start next current visited hvis hinv.ordered
        · show parentsAt (insert_or_assign acc.2 next current) start = none
          rw [parentsAt_insert_or_assign, if_neg hne]
          exact hinv.start_no_parent
      · rw [if_neg hpush]
        apply ih _ hrest
        exact ⟨hnodup, fun e he => (hfront e he).1, fun e he => (hfront e he).2,
          hinv.visited_nodup, hinv.visited_good, hinv.ordered, Or.inl hstart,
          hinv.start_no_parent⟩

/-- One pop under both invariants: the popped location was not visited before, it
satisfies `Good`, and the state after the pop has both invariants, with the start
visited. -/
theorem pop_inv (E : Env S) (pl : Planner S) (start : Vector2f S)
    (Good : Vector2f S → Prop) (st : SearchVars S) (curr_state : SearchState S)
    (frontier : SimpleQueue S)
    (hinv : SearchInv E pl start st.frontier st.visited st.parents)
    (hinv2 : SearchInv2 start Good st.frontier st.visited st.parents)
    (hpop : st.frontier.Pop = some (curr_state, frontier)) :
    curr_state.curr_loc ∉ st.visited ∧ Good curr_state.curr_loc ∧
    st.visited.insert curr_state.curr_loc = curr_state.curr_loc :: st.visited ∧
    start ∈ curr_state.curr_loc :: st.visited ∧
    SearchInv E pl start frontier (curr_state.curr_loc :: st.visited) st.parents ∧
    SearchInv2 start Good frontier (curr_state.curr_loc :: st.visited) st.parents := by
  obtain ⟨⟨p0, hp0⟩, hsub⟩ := Pop_spec st.frontier frontier curr_state hpop
  obtain ⟨hkeys, hnodup⟩ := Pop_keys st.frontier frontier curr_state hinv2.keys_nodup hpop
  have hfresh : curr_state.curr_loc ∉ st.visited := hinv2.keys_fresh _ hp0
  have hgood : Good curr_state.curr_loc := hinv2.keys_good _ hp0
  have hmono : ∀ x ∈ st.visited, x ∈ curr_state.curr_loc :: st.visited :=
    fun x hx => List.mem_cons_of_mem _ hx
  have hparent : curr_state.curr_loc = start ∨
      ∃ p, parentsAt st.parents curr_state.curr_loc = some p ∧ p ∈ st.visited :=
    hinv.frontier_ok _ hp0
  have hstart : start ∈ curr_state.curr_loc :: st.visited := by
    rcases hinv2.start_seen with h | h
    · exact hmono _ h
    · have := h _ hp0
      simp only at this
      rw [← this]
      exact List.mem_cons_self _ _
  refine ⟨hfresh, hgood, List.insert_of_not_mem hfresh, hstart, ?_, ?_⟩
  · refine ⟨?_, ?_, hinv.parents_ok⟩
    · intro e he
      rcases hinv.frontier_ok e (hsub e he) with h1 | ⟨p, hp, hpv⟩
      · exact Or.inl h1
      · exact Or.inr ⟨p, hp, hmono p hpv⟩
    · intro v hv
      rcases List.mem_cons.mp hv with rfl | hv
      · rcases hparent with h1 | ⟨p, hp, hpv⟩
        · rw [h1]
          exact Linked.base
        · exact Linked.step _ p hp (hmono p hpv)
            (Linked_mono _ _ _ _ _ hmono (hinv.visited_ok p hpv))
      · exact Linked_mono _ _ _ _ _ hmono (hinv.visited_ok v hv)
  · refine ⟨hnodup, ?_, fun e he => hinv2.keys_good e (hsub e he),
      List.nodup_cons.mpr ⟨hfresh, hinv2.visited_nodup⟩, ?_, ⟨hparent, hinv2.ordered⟩,
      Or.inl hstart, hinv2.start_no_parent⟩
    · intro e he hmem
      rcases List.mem_cons.mp hmem with h | h
      · exact hkeys e he h
      · exact hinv2.keys_fresh e (hsub e he) h
    · intro v hv
      rcases List.mem_cons.mp hv with rfl | hv
      · exact hgood
      · exact hinv2.visited_good v hv

/-- One turn of the search loop that goes on (pop, failed goal test, expansion) keeps
both invariants. -/
theorem turn_inv (E : Env S) (pl : Planner S) (start : Vector2f S)
    (Good : Vector2f S → Prop)
    (hclosed : ∀ p, Good p → ∀ q ∈ Neighbors_ E pl p [], Good q)
    (st : SearchVars S) (curr_state : SearchState S) (frontier : SimpleQueue S)
    (hinv : SearchInv E pl start st.frontier st.visited st.parents)
    (hinv2 : SearchInv2 start Good st.frontier st.visited st.parents)
    (hpop : st.frontier.Pop = some (curr_state, frontier)) :
    SearchInv E pl start
      (expandLoop E pl curr_state.curr_loc curr_state.cost
        (curr_state.curr_loc :: st.visited) (Neighbors_ E pl curr_state.curr_loc [])
        (frontier, st.parents)).1
      (curr_state.curr_loc :: st.visited)
      (expandLoop E pl curr_state.curr_loc curr_state.cost
        (curr_state.curr_loc :: st.visited) (Neighbors_ E pl curr_state.curr_loc [])
        (frontier, st.parents)).2 ∧
    SearchInv2 start Good
      (expandLoop E pl curr_state.curr_loc curr_state.cost
        (curr_state.curr_loc :: st.visited) (Neighbors_ E pl curr_state.curr_loc [])
        (frontier, st.parents)).1
      (curr_state.curr_loc :: st.visited)
      (expandLoop E pl curr_state.curr_loc curr_state.cost
        (curr_state.curr_loc :: st.visited) (Neighbors_ E pl curr_state.curr_loc [])
        (frontier, st.parents)).2 := by
  obtain ⟨_, hgood, _, hstart, h1, h2⟩ :=
    pop_inv E pl start Good st curr_state frontier hinv hinv2 hpop
  exact ⟨expandLoop_inv E pl start curr_state.curr_loc curr_state.cost _
      (List.mem_cons_self _ _) _ (frontier, st.parents) (fun n hn => hn) h1,
    expandLoop_inv2 E pl start curr_state.curr_loc Good curr_state.cost _ hstart _
      (frontier, st.parents) (hclosed _ hgood) h2⟩

/-- A queue that is not empty can be popped. -/
theorem Pop_of_not_Empty (q : SimpleQueue S) (h : ¬ q.Empty = true) :
    ∃ v q', q.Pop = some (v, q') := by
  unfold SimpleQueue.Empty at h
  unfold SimpleQueue.Pop
  cases hv : q.values_ with
  | nil => rw [hv] at h; simp at h
  | cons a rest => exact ⟨_, _, rfl⟩

/-! ## Pops, termination and reconstruction -/

/-- The pop trace within `fuel` turns has at most `fuel` entries. -/
theorem popTrace_length_le (E : Env S) (pl : Planner S) (fuel : Nat) :
    ∀ st, (popTrace E pl fuel st).length ≤ fuel := by
  induction fuel with
  | zero => intro st; simp [popTrace]
  | succ fuel ih =>
    intro st
    simp only [popTrace]
    split_ifs
    · simp
    · split
      · simp
      · split_ifs
        · simp
        · simp only [List.length_cons]
          exact Nat.succ_le_succ (ih _)

/-- Under both invariants the locations popped from a state on are pairwise different,
none of them was visited before, and each satisfies `Good`; and when the search loop is
left, the final state has both invariants, its visited list is the pop trace, newest
first, put before the old visited list, and `current` holds a visited location. -/
theorem searchLoop_trace (E : Env S) (pl : Planner S) (start : Vector2f S)
    (Good : Vector2f S → Prop)
    (hclosed : ∀ p, Good p → ∀ q ∈ Neighbors_ E pl p [], Good q) (fuel : Nat) :
    ∀ st : SearchVars S,
      SearchInv E pl start st.frontier st.visited st.parents →
      SearchInv2 start Good st.frontier st.visited st.parents →
      (popTrace E pl fuel st).Nodup ∧
      (∀ x ∈ popTrace E pl fuel st, x ∉ st.visited ∧ Good x) ∧
      ∀ st', searchLoop E pl fuel st = some st' →
        SearchInv E pl start st'.frontier st'.visited st'.parents ∧
        SearchInv2 start Good st'.frontier st'.visited st'.parents ∧
        st'.visited = (popTrace E pl fuel st).reverse ++ st.visited ∧
        (st.frontier.Empty = false → ∃ c, st'.current = some c ∧ c ∈ st'.visited) := by
  induction fuel with
  | zero =>
    intro st _ _
    simp [popTrace, searchLoop]
  | succ fuel ih =>
    intro st hinv hinv2
    simp only [popTrace, searchLoop]
    by_cases hempty : st.frontier.Empty = true
    · simp only [hempty, if_true, List.nodup_nil, List.not_mem_nil, false_implies,
        implies_true, true_and, Option.some.injEq, List.reverse_nil, List.nil_append]
      intro st' h
      rw [← h]
      exact ⟨hinv, hinv2, rfl, fun hne => absurd hne (by decide)⟩
    · obtain ⟨curr_state, frontier, hpop⟩ := Pop_of_not_Empty st.frontier hempty
      obtain ⟨hfresh, hgood, hins, _, h1, h2⟩ :=
        pop_inv E pl start Good st curr_state frontier hinv hinv2 hpop
      simp only [hempty, Bool.false_eq_true, if_false, hpop, hins]
      by_cases hgoal : AtGoal E pl curr_state.curr_loc = true
      · simp only [hgoal, if_true, List.nodup_cons, List.not_mem_nil, not_false_eq_true,
          List.nodup_nil, and_self, List.mem_singleton, forall_eq, true_and,
          Option.some.injEq, List.reverse_cons, List.reverse_nil, List.nil_append,
          List.singleton_append]
        refine ⟨⟨hfresh, hgood⟩, ?_⟩
        intro st' h
        rw [← h]
        exact ⟨h1, h2, rfl, fun _ => ⟨_, rfl, List.mem_cons_self _ _⟩⟩
      · simp only [hgoal, Bool.false_eq_true, if_false]
        obtain ⟨h3, h4⟩ := turn_inv E pl start Good hclosed st curr_state frontier hinv hinv2 hpop
        obtain ⟨hnd, hmem, hfinal⟩ := ih
          { frontier := (expandLoop E pl curr_state.curr_loc curr_state.cost
              (curr_state.curr_loc :: st.visited) (Neighbors_ E pl curr_state.curr_loc [])
              (frontier, st.parents)).1
            visited := curr_state.curr_loc :: st.visited
            parents := (expandLoop E pl curr_state.curr_loc curr_state.cost
              (curr_state.curr_loc :: st.visited) (Neighbors_ E pl curr_state.curr_loc [])
              (frontier, st.parents)).2
            current := some curr_state.curr_loc } h3 h4
        refine ⟨?_, ?_, ?_⟩
        · refine List.nodup_cons.mpr ⟨fun hin => ?_, hnd⟩
          exact (hmem _ hin).1 (List.mem_cons_self _ _)
        · intro x hx
          rcases List.mem_cons.mp hx with rfl | hx
          · exact ⟨hfresh, hgood⟩
          · exact ⟨fun hv => (hmem x hx).1 (List.mem_cons_of_mem _ hv), (hmem x hx).2⟩
        · intro st' h
          obtain ⟨h5, h6, h7, _⟩ := hfinal st' h
          refine ⟨h5, h6, ?_, fun _ => ?_⟩
          · rw [h7]
            simp
          · have hin : curr_state.curr_loc ∈ st'.visited := by
              rw [h7]
              exact List.mem_append_right _ (List.mem_cons_self _ _)
            rcases searchLoop_inv E pl start fuel _ st' h3 (fun hc => by cases hc)
              (fun c hc => by cases hc; exact List.mem_cons_self _ _) h with ⟨_, c, hc, hcv⟩
            exact ⟨c, hc, hcv⟩

/-- C20: when the search loop of `GetGlobalPlan` is left, the start has no parent entry;
every other visited location has one, and its parent was visited strictly before it, so
the parent chain has no cycle; from the last popped location the reconstruction loop
finds every key and reaches the start within as many steps as there are visited
locations, which the fuel of the search covers: with a goal set the call returns
normally. -/
theorem C20_reconstruction_safe (E : Env S) (fuel : Nat) (pl : Planner S)
    (start : Vector2f S) (angle : S) (st : SearchVars S)
    (hset : pl.global_goal_set_ = true)
    (hloop : searchLoop E pl fuel (initialVars start) = some st) :
    parentsAt st.parents start = none ∧
    (∀ v ∈ st.visited, v ≠ start →
      ∃ p newer older, parentsAt st.parents v = some p ∧
        st.visited = newer ++ v :: older ∧ p ∈ older ∧ v ∉ older) ∧
    (∃ c, st.current = some c ∧ c ∈ st.visited ∧
      ∀ walk_fuel, st.visited.length ≤ walk_fuel →
        ∃ path, walkBack start st.parents walk_fuel c [c] = some (.ok path)) ∧
    st.visited.length ≤ fuel ∧
    ∃ pl', GetGlobalPlan E fuel pl start angle = .ok pl' := by
  obtain ⟨_, _, hfinal⟩ := searchLoop_trace E pl start (fun _ => True) (fun _ _ _ _ => trivial)
    fuel (initialVars start) (SearchInv_initial E pl start)
    (SearchInv2_initial start _ trivial)
  obtain ⟨_, hinv2, hvis, hcur⟩ := hfinal st hloop
  obtain ⟨c, hc, hcv⟩ := hcur (by simp [initialVars, SimpleQueue.Push, SimpleQueue.Empty,
    pushEntries])
  have hlen : st.visited.length ≤ fuel := by
    rw [hvis]
    simp only [initialVars, List.append_nil, List.length_reverse]
    exact popTrace_length_le E pl fuel _
  have hwalk := walkBack_of_Ordered st.parents start st.visited hinv2.ordered c hcv
  refine ⟨hinv2.start_no_parent,
    Ordered_parent_before st.parents start st.visited hinv2.ordered hinv2.visited_nodup,
    ⟨c, hc, hcv, fun walk_fuel hle => hwalk walk_fuel hle [c]⟩, hlen, ?_⟩
  obtain ⟨path, hpath⟩ := hwalk fuel hlen [c]
  unfold GetGlobalPlan
  simp only [hset, Bool.not_true, Bool.false_eq_true, if_false, hloop, hc]
  cases hg : AtGoal E pl c with
  | false =>
    simp only [Bool.not_false, if_true]
    exact ⟨_, rfl⟩
  | true =>
    simp only [Bool.not_true, Bool.false_eq_true, if_false, hpath]
    exact ⟨_, rfl⟩

/-- C20 at a concrete input: beside the wall, the search loop from the origin towards
`(7/4, 0)` is left within 40 turns, so the call returns normally. -/
theorem C20_reconstruction_safe_witness :
    (searchLoop envR walledPlanner 40 (initialVars ⟨0, 0⟩)).isSome = true ∧
    ∃ pl', GetGlobalPlan envR 40 walledPlanner ⟨0, 0⟩ 0 = .ok pl' :=
  have hsome : (searchLoop envR walledPlanner 40 (initialVars ⟨0, 0⟩)).isSome = true := by
    decide!
  ⟨hsome,
    (C20_reconstruction_safe envR 40 walledPlanner ⟨0, 0⟩ 0
      ((searchLoop envR walledPlanner 40 (initialVars ⟨0, 0⟩)).get hsome) rfl
      (by simp)).2.2.2.2⟩

/-! ## Frontier: accepted and refused pushes, the minimum -/

/-- An accepted push leaves the pushed entry in the queue. -/
theorem pushEntries_accepted (v : SearchState S) (p : S) (entries : List (SearchState S × S))
    (h : (pushEntries v p entries).2 = true) : (v, p) ∈ (pushEntries v p entries).1 := by
  induction entries with
  | nil => simp [pushEntries]
  | cons a rest ih =>
    simp only [pushEntries] at h ⊢
    split_ifs at h ⊢ with h1 h2
    · exact List.mem_cons_self _ _
    · exact List.mem_cons_of_mem _ (ih h)

/-- A push keeps the entries of the other locations. -/
theorem pushEntries_keep (v : SearchState S) (p : S) (entries : List (SearchState S × S))
    (e : SearchState S × S) (he : e ∈ entries) (hkey : e.1.curr_loc ≠ v.curr_loc) :
    e ∈ (pushEntries v p entries).1 := by
  induction entries with
  | nil => cases he
  | cons a rest ih =>
    simp only [pushEntries]
    rcases List.mem_cons.mp he with rfl | he
    · rw [if_neg hkey]
      exact List.mem_cons_self _ _
    · split_ifs with h1 h2
      · exact List.mem_cons_of_mem _ he
      · exact List.mem_cons_of_mem _ he
      · exact List.mem_cons_of_mem _ (ih he)

/-- An accepted push on a queue with one entry per location is strictly cheaper than the
entry the location had. -/
theorem pushEntries_accepted_lt (v : SearchState S) (p : S)
    (entries : List (SearchState S × S))
    (hnodup : (entries.map (fun e => e.1.curr_loc)).Nodup)
    (h : (pushEntries v p entries).2 = true) (e : SearchState S × S) (he : e ∈ entries)
    (hkey : e.1.curr_loc = v.curr_loc) : p < e.2 := by
  induction entries with
  | nil => cases he
  | cons a rest ih =>
    simp only [List.map_cons, List.nodup_cons] at hnodup
    simp only [pushEntries] at h
    rcases List.mem_cons.mp he with rfl | he
    · rw [if_pos hkey] at h
      by_contra hlt
      rw [if_neg hlt] at h
      cases h
    · have hne : ¬ a.1.curr_loc = v.curr_loc := by
        intro ha
        apply hnodup.1
        rw [ha, ← hkey]
        exact List.mem_map_of_mem _ he
      rw [if_neg hne] at h
      exact ih hnodup.2 h he

/-- A refused push met an entry of the same location that is not more expensive. -/
theorem pushEntries_refused_entry (v : SearchState S) (p : S)
    (entries : List (SearchState S × S)) (h : (pushEntries v p entries).2 = false) :
    ∃ e ∈ entries, e.1.curr_loc = v.curr_loc ∧ e.2 ≤ p := by
  induction entries with
  | nil => simp [pushEntries] at h
  | cons a rest ih =>
    simp only [pushEntries] at h
    split_ifs at h with h1 h2
    · exact ⟨a, List.mem_cons_self _ _, h1, not_lt.mp h2⟩
    · obtain ⟨e, he, hk, hle⟩ := ih h
      exact ⟨e, List.mem_cons_of_mem _ he, hk, hle⟩

/-- The entry selected by a pop has the least priority. -/
theorem minEntry_le (rest : List (SearchState S × S)) :
    ∀ best : SearchState S × S, ∀ e ∈ best :: rest, (minEntry best rest).2 ≤ e.2 := by
  induction rest with
  | nil =>
    intro best e he
    simp only [List.mem_singleton] at he
    rw [he]
    exact le_refl _
  | cons a rest ih =>
    intro best e he
    simp only [minEntry]
    by_cases hlt : a.2 < best.2
    · rw [if_pos hlt]
      rcases List.mem_cons.mp he with rfl | he
      · exact le_trans (ih a a (List.mem_cons_self _ _)) (le_of_lt hlt)
      · exact ih a e he
    · rw [if_neg hlt]
      rcases List.mem_cons.mp he with rfl | he
      · exact ih e e (List.mem_cons_self _ _)
      · rcases List.mem_cons.mp he with rfl | he
        · exact le_trans (ih best best (List.mem_cons_self _ _)) (not_lt.mp hlt)
        · exact ih best e (List.mem_cons_of_mem _ he)

/-- A pop returns the node of a queued entry of least priority and removes nothing but
that entry. -/
theorem Pop_min (q q' : SimpleQueue S) (v : SearchState S) (h : q.Pop = some (v, q')) :
    ∃ p, (v, p) ∈ q.values_ ∧ (∀ e ∈ q.values_, p ≤ e.2) ∧
      ∀ e ∈ q.values_, e ≠ (v, p) → e ∈ q'.values_ := by
  unfold SimpleQueue.Pop at h
  cases hq : q.values_ with
  | nil => rw [hq] at h; cases h
  | cons a rest =>
    rw [hq] at h
    simp only [Option.some.injEq, Prod.mk.injEq] at h
    obtain ⟨hv, hq'⟩ := h
    refine ⟨(minEntry a rest).2, ?_, minEntry_le rest a, ?_⟩
    · rw [← hv]
      exact minEntry_mem rest a
    · intro e he hne
      rw [← hq']
      apply (List.mem_erase_of_ne ?_).mpr he
      rw [← hv] at hne
      exact hne

/-! ## Path cost -/

/-- The cost of a sequence of at least two points: the first edge and the rest. -/
theorem pathCost_cons_cons (E : Env S) (p q : Vector2f S) (rest : List (Vector2f S)) :
    pathCost E (p :: q :: rest) = pathCost E (q :: rest) + E.norm (p - q) := by
  simp [pathCost, GetCost_]

/-- The cost of a sequence through a point is the cost up to the point plus the cost
from it on. -/
theorem pathCost_append (E : Env S) (pre : List (Vector2f S)) :
    ∀ (a : Vector2f S) (post : List (Vector2f S)),
      pathCost E (pre ++ a :: post) = pathCost E (pre ++ [a]) + pathCost E (a :: post) := by
  induction pre with
  | nil => intro a post; simp [pathCost]
  | cons x rest ih =>
    intro a post
    cases rest with
    | nil =>
      show pathCost E (x :: a :: post) = pathCost E (x :: a :: []) + pathCost E (a :: post)
      rw [pathCost_cons_cons, pathCost_cons_cons]
      simp only [pathCost]
      ring
    | cons y rest' =>
      have h := ih a post
      show pathCost E (x :: y :: (rest' ++ a :: post)) =
        pathCost E (x :: y :: (rest' ++ [a])) + pathCost E (a :: post)
      rw [pathCost_cons_cons, pathCost_cons_cons]
      have h' : pathCost E (y :: (rest' ++ a :: post)) =
          pathCost E (y :: (rest' ++ [a])) + pathCost E (a :: post) := h
      rw [h']
      ring

/-- The cost of a sequence is not negative. -/
theorem pathCost_nonneg (E : Env S) (hnorm : NormLaws E) (w : List (Vector2f S)) :
    0 ≤ pathCost E w := by
  induction w with
  | nil => simp [pathCost]
  | cons x rest ih =>
    cases rest with
    | nil => simp [pathCost]
    | cons y rest' =>
      rw [pathCost_cons_cons]
      have := hnorm.nonneg (x - y)
      linarith

/-- The heuristic drops by at most the length of an edge along it. -/
theorem heuristic_step_le (E : Env S) (pl : Planner S) (hnorm : NormLaws E)
    (p q : Vector2f S) :
    GetHeuristic_ E pl p ≤ E.norm (p - q) + GetHeuristic_ E pl q := by
  have h := hnorm.triangle pl.global_goal_mloc_ q p
  rw [hnorm.symm q p] at h
  unfold GetHeuristic_
  linarith

/-- Along any sequence of points the heuristic at the first point is at most the cost of
the sequence plus the heuristic at the last point. -/
theorem heuristic_le_pathCost (E : Env S) (pl : Planner S) (hnorm : NormLaws E)
    (w : List (Vector2f S)) :
    ∀ a b, w.head? = some a → w.getLast? = some b →
      GetHeuristic_ E pl a ≤ pathCost E w + GetHeuristic_ E pl b := by
  induction w with
  | nil => intro a b h; simp at h
  | cons x rest ih =>
    intro a b ha hb
    simp only [List.head?_cons, Option.some.injEq] at ha
    subst ha
    cases rest with
    | nil =>
      simp only [List.getLast?_singleton, Option.some.injEq] at hb
      subst hb
      simp [pathCost]
    | cons y rest' =>
      have h1 := ih y b rfl (by rw [← hb]; simp [List.getLast?_cons_cons])
      have h2 := heuristic_step_le E pl hnorm x y
      rw [pathCost_cons_cons]
      linarith

/-! ## Routes that leave the visited set -/

omit [LinearOrderedField S] in
/-- A sequence that begins inside a set and ends outside of it has two consecutive
points, the first inside and the second outside. -/
theorem crossing (visited : List (Vector2f S)) (w : List (Vector2f S)) :
    ∀ first, w.head? = some first → first ∈ visited →
      ∀ last, w.getLast? = some last → last ∉ visited →
        ∃ pre a b post, w = pre ++ a :: b :: post ∧ a ∈ visited ∧ b ∉ visited := by
  induction w with
  | nil => intro first h; simp at h
  | cons x rest ih =>
    intro first hfirst hin last hlast hout
    simp only [List.head?_cons, Option.some.injEq] at hfirst
    subst hfirst
    cases rest with
    | nil =>
      simp only [List.getLast?_singleton, Option.some.injEq] at hlast
      subst hlast
      exact absurd hin hout
    | cons y rest' =>
      by_cases hy : y ∈ visited
      · obtain ⟨pre, a, b, post, hw, ha, hb⟩ :=
          ih y rfl hy last (by rw [← hlast]; simp [List.getLast?_cons_cons]) hout
        exact ⟨x :: pre, a, b, post, by rw [hw]; rfl, ha, hb⟩
      · exact ⟨[], x, y, rest', rfl, hin, hy⟩

/-- A route cut at two consecutive points: the part up to the first point is a route,
the two points are a step of the neighbor generator, and the cost of the whole is the
cost of the first part, the edge, and the part from the second point on, on which the
heuristic drops by at most its cost. -/
theorem Route_split (E : Env S) (pl : Planner S) (hnorm : NormLaws E)
    (start finish a b : Vector2f S) (pre post : List (Vector2f S))
    (h : Route E pl start (pre ++ a :: b :: post) finish) :
    Route E pl start (pre ++ [a]) a ∧ b ∈ Neighbors_ E pl a [] ∧
    pathCost E (pre ++ [a]) + E.norm (a - b) + GetHeuristic_ E pl b ≤
      pathCost E (pre ++ a :: b :: post) + GetHeuristic_ E pl finish := by
  obtain ⟨hhead, hlast, hchain⟩ := h
  have hw : pre ++ a :: b :: post = (pre ++ [a]) ++ (b :: post) := by simp
  have hchain' := hchain
  rw [hw, List.chain'_append] at hchain'
  obtain ⟨hc1, _, hstep⟩ := hchain'
  refine ⟨⟨?_, by simp, hc1⟩, ?_, ?_⟩
  · cases pre with
    | nil => simpa using hhead
    | cons x rest => simpa using hhead
  · exact hstep a (by simp) b (by simp)
  · have hh := heuristic_le_pathCost E pl hnorm (b :: post) b finish rfl
      (by rw [← hlast, hw, List.getLast?_append_of_ne_nil _ (List.cons_ne_nil b post)])
    rw [pathCost_append E pre a (b :: post), pathCost_cons_cons]
    linarith

/-- A non-empty list in visit order holds the start. -/
theorem Ordered_start_mem (parents : List (Vector2f S × Vector2f S)) (start : Vector2f S)
    (l : List (Vector2f S)) : Ordered parents start l → l ≠ [] → start ∈ l := by
  induction l with
  | nil => intro _ h; exact absurd rfl h
  | cons v older ih =>
    intro hord _
    obtain ⟨hv, hrest⟩ := hord
    rcases hv with hv | ⟨p, _, hmem⟩
    · rw [hv]
      exact List.mem_cons_self _ _
    · exact List.mem_cons_of_mem _ (ih hrest (List.ne_nil_of_mem hmem))

/-! ## Costs along the parent map -/

/-- Growing the visited set keeps a walk back and its cost. -/
theorem LinkedCost_mono (E : Env S) (visited visited' : List (Vector2f S))
    (parents : List (Vector2f S × Vector2f S)) (start v : Vector2f S) (g : S)
    (hsub : ∀ x ∈ visited, x ∈ visited')
    (h : LinkedCost E visited parents start v g) :
    LinkedCost E visited' parents start v g := by
  induction h with
  | base => exact LinkedCost.base
  | step v p g hne hp hmem _ ih => exact LinkedCost.step v p g hne hp (hsub p hmem) ih

/-- Assigning a parent to a location that is not visited keeps the walk back of every
visited location, and its cost. -/
theorem LinkedCost_assign (E : Env S) (visited : List (Vector2f S))
    (parents : List (Vector2f S × Vector2f S)) (start next current v : Vector2f S) (g : S)
    (hnext : next ∉ visited) (h : LinkedCost E visited parents start v g) :
    v ∈ visited → LinkedCost E visited (insert_or_assign parents next current) start v g := by
  induction h with
  | base => intro _; exact LinkedCost.base
  | step v p g hne hp hmem _ ih =>
    intro hv
    have hk : ¬ next = v := fun e => hnext (e ▸ hv)
    refine LinkedCost.step v p g hne ?_ hmem (ih hmem)
    rw [parentsAt_insert_or_assign, if_neg hk]
    exact hp

/-- The waypoint sequence the reconstruction loop builds from a location costs what the
walk back from that location costs, on top of the part that was built before. -/
theorem walkBack_cost (E : Env S) (visited : List (Vector2f S))
    (parents : List (Vector2f S × Vector2f S)) (start : Vector2f S) (fuel : Nat) :
    ∀ (v : Vector2f S) (rest path : List (Vector2f S)) (g : S),
      LinkedCost E visited parents start v g →
      walkBack start parents fuel v (v :: rest) = some (.ok path) →
      pathCost E path = g + pathCost E (v :: rest) := by
  induction fuel with
  | zero => intro v rest path g _ h; simp [walkBack] at h
  | succ fuel ih =>
    intro v rest path g hlc h
    simp only [walkBack] at h
    by_cases hv : v ≠ start
    · rw [if_pos hv] at h
      cases hlc with
      | base => exact absurd rfl hv
      | step _ p g' _ hp _ hlc' =>
        rw [hp] at h
        simp only at h
        rw [ih p (v :: rest) path g' hlc' h, pathCost_cons_cons]
        unfold GetCost_
        ring
    · rw [if_neg hv] at h
      simp only [Option.some.injEq, Except.ok.injEq] at h
      rw [← h]
      cases hlc with
      | base => simp
      | step _ p g' hne _ _ _ => exact absurd hne hv

/-! ## The search loop keeps its cost invariant -/

/-- A push keeps every location covered at the cost it was covered at, on a queue with
one entry per location whose priorities are `cost + heuristic`. -/
theorem Covered_push (E : Env S) (pl : Planner S) (frontier : SimpleQueue S)
    (visited : List (Vector2f S)) (next : Vector2f S) (cost : S)
    (hnodup : (frontier.values_.map (fun e => e.1.curr_loc)).Nodup)
    (hprio : ∀ e ∈ frontier.values_, e.2 = e.1.cost + GetHeuristic_ E pl e.1.curr_loc)
    (q : Vector2f S) (bound : S) (h : Covered frontier visited q bound) :
    Covered (frontier.Push ⟨next, cost⟩ (cost + GetHeuristic_ E pl next)).1 visited q
      bound := by
  rcases h with h | ⟨e, he, hkey, hle⟩
  · exact Or.inl h
  · right
    by_cases hk : e.1.curr_loc = next
    · cases hpush : (pushEntries ⟨next, cost⟩ (cost + GetHeuristic_ E pl next)
          frontier.values_).2 with
      | true =>
        refine ⟨(⟨next, cost⟩, cost + GetHeuristic_ E pl next),
          pushEntries_accepted _ _ _ hpush, by rw [← hkey, hk], ?_⟩
        have hlt := pushEntries_accepted_lt _ _ _ hnodup hpush e he hk
        rw [hprio e he, hk] at hlt
        simp only at hlt ⊢
        linarith
      | false =>
        refine ⟨e, ?_, hkey, hle⟩
        show e ∈ (pushEntries _ _ frontier.values_).1
        rw [pushEntries_refused _ _ _ hpush]
        exact he
    · exact ⟨e, pushEntries_keep _ _ _ e he hk, hkey, hle⟩

/-- After a push the pushed location is covered at the pushed cost. -/
theorem Covered_push_self (E : Env S) (pl : Planner S) (frontier : SimpleQueue S)
    (visited : List (Vector2f S)) (next : Vector2f S) (cost : S)
    (hprio : ∀ e ∈ frontier.values_, e.2 = e.1.cost + GetHeuristic_ E pl e.1.curr_loc) :
    Covered (frontier.Push ⟨next, cost⟩ (cost + GetHeuristic_ E pl next)).1 visited next
      cost := by
  right
  cases hpush : (pushEntries ⟨next, cost⟩ (cost + GetHeuristic_ E pl next)
      frontier.values_).2 with
  | true =>
    exact ⟨(⟨next, cost⟩, cost + GetHeuristic_ E pl next), pushEntries_accepted _ _ _ hpush,
      rfl, le_refl _⟩
  | false =>
    obtain ⟨e, he, hk, hle⟩ := pushEntries_refused_entry _ _ _ hpush
    refine ⟨e, ?_, hk, ?_⟩
    · show e ∈ (pushEntries _ _ frontier.values_).1
      rw [pushEntries_refused _ _ _ hpush]
      exact he
    · rw [hprio e he, hk] at hle
      simp only at hle
      linarith

/-- The `for` loop over the neighbors keeps the cost invariant with `current` pending
and the walk back of `current`, keeps every location covered at the cost it was covered at, and covers every neighbor
it went over at the cost of going through `current`. -/
theorem expandLoop_inv3 (E : Env S) (pl : Planner S) (start current : Vector2f S)
    (curr_cost : S) (visited : List (Vector2f S)) (hcur : current ∈ visited)
    (hstart : start ∈ visited) (ns : List (Vector2f S)) :
    ∀ acc : SimpleQueue S × List (Vector2f S × Vector2f S),
      SearchInv2 start (fun _ => True) acc.1 visited acc.2 →
      SearchInv3 E pl start (some current) acc.1 visited acc.2 →
      LinkedCost E visited acc.2 start current curr_cost →
      SearchInv3 E pl start (some current)
        (expandLoop E pl current curr_cost visited ns acc).1 visited
        (expandLoop E pl current curr_cost visited ns acc).2 ∧
      LinkedCost E visited (expandLoop E pl current curr_cost visited ns acc).2 start current
        curr_cost ∧
      (∀ q bound, Covered acc.1 visited q bound →
        Covered (expandLoop E pl current curr_cost visited ns acc).1 visited q bound) ∧
      (∀ n ∈ ns, Covered (expandLoop E pl current curr_cost visited ns acc).1 visited n
        (GetCost_ E n current curr_cost)) := by
  induction ns with
  | nil =>
    intro acc _ h3 hlc
    exact ⟨h3, hlc, fun _ _ h => h, fun n hn => by cases hn⟩
  | cons next rest ih =>
    intro acc h2 h3 hlc
    have hne : visited ≠ [] := List.ne_nil_of_mem hcur
    have hprio : ∀ e ∈ acc.1.values_, e.2 = e.1.cost + GetHeuristic_ E pl e.1.curr_loc :=
      fun e he => h3.entry_prio e he hne
    have h2' := expandLoop_inv2 E pl start current (fun _ => True) curr_cost visited hstart
      [next] acc (fun _ _ => trivial) h2
    simp only [expandLoop] at h2' ⊢
    by_cases hvis : next ∈ visited
    · rw [if_pos hvis]
      obtain ⟨r1, r0, r2, r3⟩ := ih acc h2 h3 hlc
      refine ⟨r1, r0, r2, ?_⟩
      intro n hn
      rcases List.mem_cons.mp hn with rfl | hn
      · exact Or.inl hvis
      · exact r3 n hn
    · rw [if_neg hvis] at h2' ⊢
      have hcov := Covered_push E pl acc.1 visited next (GetCost_ E next current curr_cost)
        h2.keys_nodup hprio
      have hself := Covered_push_self E pl acc.1 visited next
        (GetCost_ E next current curr_cost) hprio
      have hnstart : next ≠ start := fun e => hvis (e ▸ hstart)
      by_cases hpush : (acc.1.Push ⟨next, GetCost_ E next current curr_cost⟩
          (GetCost_ E next current curr_cost + GetHeuristic_ E pl next)).2 = true
      · rw [if_pos hpush] at h2' ⊢
        have hlc' : LinkedCost E visited (insert_or_assign acc.2 next current) start current
            curr_cost := LinkedCost_assign E visited acc.2 start next current current curr_cost
          hvis hlc hcur
        have hnew : ∀ e ∈ (acc.1.Push ⟨next, GetCost_ E next current curr_cost⟩
            (GetCost_ E next current curr_cost + GetHeuristic_ E pl next)).1.values_,
            e.1.curr_loc = next →
            e = (⟨next, GetCost_ E next current curr_cost⟩,
              GetCost_ E next current curr_cost + GetHeuristic_ E pl next) := by
          intro e he hk
          exact List.inj_on_of_nodup_map h2'.keys_nodup he
            (pushEntries_accepted _ _ _ hpush) hk
        have h3' : SearchInv3 E pl start (some current)
            (acc.1.Push ⟨next, GetCost_ E next current curr_cost⟩
              (GetCost_ E next current curr_cost + GetHeuristic_ E pl next)).1 visited
            (insert_or_assign acc.2 next current) := by
          refine ⟨?_, ?_, ?_⟩
          · intro e he _
            rcases pushEntries_mem _ _ _ e he with h | h
            · exact hprio e h
            · rw [h]
          · intro e he
            by_cases hk : e.1.curr_loc = next
            · right
              rw [hnew e he hk]
              exact ⟨hnstart, current, curr_cost,
                by rw [parentsAt_insert_or_assign, if_pos rfl], hcur, hlc', rfl⟩
            · rcases pushEntries_mem _ _ _ e he with h | h
              · rcases h3.entry_cost e h with h0 | ⟨hs, p, g, hp, hpv, hpl, hc⟩
                · exact Or.inl h0
                · right
                  refine ⟨hs, p, g, ?_, hpv, ?_, hc⟩
                  · rw [parentsAt_insert_or_assign, if_neg (fun e' => hk e'.symm)]
                    exact hp
                  · exact LinkedCost_assign E visited acc.2 start next current p g hvis hpl hpv
              · rw [h] at hk
                exact absurd rfl hk
          · intro v hv
            obtain ⟨g, hg, hopt, hexp⟩ := h3.visited_cost v hv
            refine ⟨g, LinkedCost_assign E visited acc.2 start next current v g hvis hg hv,
              hopt, fun hpend => ?_⟩
            obtain ⟨hgoal, hc⟩ := hexp hpend
            exact ⟨hgoal, fun q hq => hcov q _ (hc q hq)⟩
        obtain ⟨r1, r0, r2, r3⟩ := ih _ h2' h3' hlc'
        refine ⟨r1, r0, fun q b h => r2 q b (hcov q b h), ?_⟩
        intro n hn
        rcases List.mem_cons.mp hn with rfl | hn
        · exact r2 _ _ hself
        · exact r3 n hn
      · rw [if_neg hpush] at h2' ⊢
        have hsame : (acc.1.Push ⟨next, GetCost_ E next current curr_cost⟩
            (GetCost_ E next current curr_cost + GetHeuristic_ E pl next)).1 = acc.1 := by
          simp only [SimpleQueue.Push]
          rw [pushEntries_refused _ _ _ (by simpa [SimpleQueue.Push] using hpush)]
        have h3' : SearchInv3 E pl start (some current)
            (acc.1.Push ⟨next, GetCost_ E next current curr_cost⟩
              (GetCost_ E next current curr_cost + GetHeuristic_ E pl next)).1 visited
            acc.2 := by
          rw [hsame]
          exact h3
        obtain ⟨r1, r0, r2, r3⟩ := ih _ h2' h3' hlc
        refine ⟨r1, r0, fun q b h => r2 q b (hcov q b h), ?_⟩
        intro n hn
        rcases List.mem_cons.mp hn with rfl | hn
        · exact r2 _ _ hself
        · exact r3 n hn

/-- The cost invariant on entry to the search loop. -/
theorem SearchInv3_initial (E : Env S) (pl : Planner S) (start : Vector2f S) :
    SearchInv3 E pl start none (initialVars start).frontier (initialVars start).visited
      (initialVars start).parents := by
  refine ⟨?_, ?_, ?_⟩
  · intro e _ h
    simp [initialVars] at h
  · intro e he
    left
    simp only [initialVars, SimpleQueue.Push, pushEntries, List.mem_singleton] at he
    rw [he]
    exact ⟨rfl, rfl⟩
  · intro v hv
    simp [initialVars] at hv

/-- One pop under the three invariants.  The popped location walks back to the start at
the cost its entry carried; that cost plus the heuristic is at most the cost of any
route from the start to a location not visited before plus the heuristic there; and the
state after the pop has the cost invariant with the popped location pending. -/
theorem pop_inv3 (E : Env S) (pl : Planner S) (start : Vector2f S) (hnorm : NormLaws E)
    (st : SearchVars S) (curr_state : SearchState S) (frontier : SimpleQueue S)
    (hinv : SearchInv E pl start st.frontier st.visited st.parents)
    (hinv2 : SearchInv2 start (fun _ => True) st.frontier st.visited st.parents)
    (hinv3 : SearchInv3 E pl start none st.frontier st.visited st.parents)
    (hpop : st.frontier.Pop = some (curr_state, frontier)) :
    LinkedCost E (curr_state.curr_loc :: st.visited) st.parents start curr_state.curr_loc
      curr_state.cost ∧
    (∀ w finish, Route E pl start w finish → finish ∉ st.visited →
      curr_state.cost + GetHeuristic_ E pl curr_state.curr_loc ≤
        pathCost E w + GetHeuristic_ E pl finish) ∧
    SearchInv3 E pl start (some curr_state.curr_loc) frontier
      (curr_state.curr_loc :: st.visited) st.parents := by
  obtain ⟨p0, hm, hmin, hkeep⟩ := Pop_min st.frontier frontier curr_state hpop
  obtain ⟨_, hsub⟩ := Pop_spec st.frontier frontier curr_state hpop
  obtain ⟨hkeys, _⟩ := Pop_keys st.frontier frontier curr_state hinv2.keys_nodup hpop
  obtain ⟨hfresh, _, _, _, _, _⟩ :=
    pop_inv E pl start (fun _ => True) st curr_state frontier hinv hinv2 hpop
  have hmono : ∀ x ∈ st.visited, x ∈ curr_state.curr_loc :: st.visited :=
    fun x hx => List.mem_cons_of_mem _ hx
  have hlc : LinkedCost E (curr_state.curr_loc :: st.visited) st.parents start
      curr_state.curr_loc curr_state.cost := by
    rcases hinv3.entry_cost _ hm with ⟨h1, h2⟩ | ⟨hs, p, g, hp, hpv, hpl, hc⟩
    · simp only at h1 h2
      rw [h2, h1]
      exact LinkedCost.base
    · simp only at hs hp hc
      rw [hc]
      exact LinkedCost.step _ p g hs hp (hmono p hpv) (LinkedCost_mono E _ _ _ _ _ _ hmono hpl)
  have hopt : ∀ w finish, Route E pl start w finish → finish ∉ st.visited →
      curr_state.cost + GetHeuristic_ E pl curr_state.curr_loc ≤
        pathCost E w + GetHeuristic_ E pl finish := by
    intro w finish hroute hout
    by_cases hv : st.visited = []
    · have hkey : curr_state.curr_loc = start := by
        rcases hinv2.start_seen with h | h
        · rw [hv] at h; cases h
        · exact h _ hm
      have hcost : curr_state.cost = 0 := by
        rcases hinv3.entry_cost _ hm with ⟨_, h2⟩ | ⟨_, p, g, _, hpv, _⟩
        · exact h2
        · rw [hv] at hpv; cases hpv
      rw [hcost, hkey, zero_add]
      exact heuristic_le_pathCost E pl hnorm w start finish hroute.1 hroute.2.1
    · have hstart : start ∈ st.visited := Ordered_start_mem _ _ _ hinv2.ordered hv
      obtain ⟨pre, a, b, post, hw, ha, hb⟩ :=
        crossing st.visited w start hroute.1 hstart finish hroute.2.1 hout
      subst hw
      obtain ⟨hra, hstep, hsplit⟩ := Route_split E pl hnorm start finish a b pre post hroute
      obtain ⟨g, _, hga, hexp⟩ := hinv3.visited_cost a ha
      obtain ⟨_, hcover⟩ := hexp (by simp)
      rcases hcover b hstep with hbv | ⟨e, he, hek, hec⟩
      · exact absurd hbv hb
      · have h1 := hmin e he
        have hp0 := hinv3.entry_prio _ hm hv
        have hpe := hinv3.entry_prio e he hv
        rw [hek] at hpe
        have h2 := hga _ hra
        unfold GetCost_ at hec
        simp only at hp0
        linarith
  refine ⟨hlc, hopt, ?_, ?_, ?_⟩
  · intro e he _
    by_cases hv : st.visited = []
    · exfalso
      rcases hinv2.start_seen with h | h
      · rw [hv] at h; cases h
      · apply hkeys e he
        rw [h e (hsub e he), h _ hm]
    · exact hinv3.entry_prio e (hsub e he) hv
  · intro e he
    rcases hinv3.entry_cost e (hsub e he) with h0 | ⟨hs, p, g, hp, hpv, hpl, hc⟩
    · exact Or.inl h0
    · exact Or.inr ⟨hs, p, g, hp, hmono p hpv, LinkedCost_mono E _ _ _ _ _ _ hmono hpl, hc⟩
  · intro v hv
    rcases List.mem_cons.mp hv with rfl | hv
    · refine ⟨curr_state.cost, hlc, fun w hw => ?_, fun hpend => absurd rfl hpend⟩
      have := hopt w _ hw hfresh
      linarith
    · obtain ⟨g, hg, hga, hexp⟩ := hinv3.visited_cost v hv
      refine ⟨g, LinkedCost_mono E _ _ _ _ _ _ hmono hg, hga, fun _ => ?_⟩
      obtain ⟨hgoal, hcover⟩ := hexp (by simp)
      refine ⟨hgoal, fun q hq => ?_⟩
      rcases hcover q hq with hqv | ⟨e, he, hek, hec⟩
      · exact Or.inl (hmono q hqv)
      · by_cases hem : e = (curr_state, p0)
        · left
          rw [← hek, hem]
          exact List.mem_cons_self _ _
        · exact Or.inr ⟨e, hkeep e he hem, hek, hec⟩

/-- One turn of the search loop that goes on (pop, failed goal test, expansion) keeps
the cost invariant. -/
theorem turn_inv3 (E : Env S) (pl : Planner S) (start : Vector2f S) (hnorm : NormLaws E)
    (st : SearchVars S) (curr_state : SearchState S) (frontier : SimpleQueue S)
    (hinv : SearchInv E pl start st.frontier st.visited st.parents)
    (hinv2 : SearchInv2 start (fun _ => True) st.frontier st.visited st.parents)
    (hinv3 : SearchInv3 E pl start none st.frontier st.visited st.parents)
    (hpop : st.frontier.Pop = some (curr_state, frontier))
    (hgoal : AtGoal E pl curr_state.curr_loc = false) :
    SearchInv3 E pl start none
      (expandLoop E pl curr_state.curr_loc curr_state.cost
        (curr_state.curr_loc :: st.visited) (Neighbors_ E pl curr_state.curr_loc [])
        (frontier, st.parents)).1
      (curr_state.curr_loc :: st.visited)
      (expandLoop E pl curr_state.curr_loc curr_state.cost
        (curr_state.curr_loc :: st.visited) (Neighbors_ E pl curr_state.curr_loc [])
        (frontier, st.parents)).2 := by
  obtain ⟨hfresh, _, _, hstart, _, h2⟩ :=
    pop_inv E pl start (fun _ => True) st curr_state frontier hinv hinv2 hpop
  obtain ⟨hlc, hopt, h3⟩ := pop_inv3 E pl start hnorm st curr_state frontier hinv hinv2 hinv3 hpop
  obtain ⟨r1, r0, _, r3⟩ := expandLoop_inv3 E pl start curr_state.curr_loc curr_state.cost
    (curr_state.curr_loc :: st.visited) (List.mem_cons_self _ _) hstart
    (Neighbors_ E pl curr_state.curr_loc []) (frontier, st.parents) h2 h3 hlc
  refine ⟨r1.entry_prio, r1.entry_cost, ?_⟩
  intro v hv
  by_cases hvc : v = curr_state.curr_loc
  · rw [hvc]
    refine ⟨curr_state.cost, r0, fun w hw => ?_, fun _ => ⟨hgoal, r3⟩⟩
    have := hopt w _ hw hfresh
    linarith
  · obtain ⟨g, hg, hga, hexp⟩ := r1.visited_cost v hv
    exact ⟨g, hg, hga, fun _ => hexp (fun h => hvc (Option.some.inj h).symm)⟩

/-- When the search loop is left on a location that passes the goal test, that location
walks back to the start at a cost `g` such that `g` plus the heuristic there is at most
the cost of any route from the start to any location passing the goal test plus the
heuristic at that location. -/
theorem searchLoop_opt (E : Env S) (pl : Planner S) (start : Vector2f S)
    (hnorm : NormLaws E) (fuel : Nat) :
    ∀ st st' : SearchVars S,
      SearchInv E pl start st.frontier st.visited st.parents →
      SearchInv2 start (fun _ => True) st.frontier st.visited st.parents →
      SearchInv3 E pl start none st.frontier st.visited st.parents →
      (∀ c, st.current = some c → c ∈ st.visited) →
      searchLoop E pl fuel st = some st' →
      ∀ c, st'.current = some c → AtGoal E pl c = true →
        ∃ g, LinkedCost E st'.visited st'.parents start c g ∧
          ∀ w finish, Route E pl start w finish → AtGoal E pl finish = true →
            g + GetHeuristic_ E pl c ≤ pathCost E w + GetHeuristic_ E pl finish := by
  induction fuel with
  | zero => intro st st' _ _ _ _ h; simp [searchLoop] at h
  | succ fuel ih =>
    intro st st' hinv hinv2 hinv3 hcur h c hc hgoalc
    simp only [searchLoop] at h
    have hnogoal : ∀ v ∈ st.visited, AtGoal E pl v = false := by
      intro v hv
      obtain ⟨_, _, _, hexp⟩ := hinv3.visited_cost v hv
      exact (hexp (by simp)).1
    by_cases hempty : st.frontier.Empty = true
    · rw [if_pos hempty] at h
      cases h
      rw [hnogoal c (hcur c hc)] at hgoalc
      cases hgoalc
    · obtain ⟨curr_state, frontier, hpop⟩ := Pop_of_not_Empty st.frontier hempty
      obtain ⟨_, _, hins, _, _, _⟩ :=
        pop_inv E pl start (fun _ => True) st curr_state frontier hinv hinv2 hpop
      obtain ⟨hlc, hopt, _⟩ :=
        pop_inv3 E pl start hnorm st curr_state frontier hinv hinv2 hinv3 hpop
      simp only [hempty, Bool.false_eq_true, if_false, hpop, hins] at h
      by_cases hgoal : AtGoal E pl curr_state.curr_loc = true
      · simp only [hgoal, if_true, Option.some.injEq] at h
        rw [← h] at hc ⊢
        simp only [Option.some.injEq] at hc
        rw [← hc]
        refine ⟨curr_state.cost, hlc, fun w finish hw hfin => hopt w finish hw ?_⟩
        intro hv
        rw [hnogoal finish hv] at hfin
        cases hfin
      · simp only [hgoal, Bool.false_eq_true, if_false] at h
        obtain ⟨h1, h2⟩ := turn_inv E pl start (fun _ => True) (fun _ _ _ _ => trivial) st
          curr_state frontier hinv hinv2 hpop
        have h3 := turn_inv3 E pl start hnorm st curr_state frontier hinv hinv2 hinv3 hpop
          (by simpa using hgoal)
        exact ih _ st' h1 h2 h3 (fun c' hc' => by cases hc'; exact List.mem_cons_self _ _) h
          c hc hgoalc

/-- How far the search is from a best path in exact arithmetic: for a norm with the laws of a vector norm and the frontier of the specification, a
non-empty `Path` that `GetGlobalPlan` returns is a route from the start to its last
point, which passes the goal test, and it is a best route to that point: no sequence of
steps of the neighbor generator from the start to the same point costs less.  Against a
route to any location passing the goal test it is best up to the heuristic, `cost + h` at
its end being at most `cost + h` at the end of the other route, hence it costs less than
the other route plus `STOP_DIST`. -/
theorem path_is_cheapest_to_its_end_exact (E : Env S) (fuel : Nat) (pl pl' : Planner S)
    (start : Vector2f S) (angle : S) (hnorm : NormLaws E)
    (hset : pl.global_goal_set_ = true)
    (hplan : GetGlobalPlan E fuel pl start angle = .ok pl') (hne : pl'.path_ ≠ []) :
    ∃ last, pl'.path_.getLast? = some last ∧ AtGoal E pl last = true ∧
      Route E pl start pl'.path_ last ∧
      (∀ w, Route E pl start w last → pathCost E pl'.path_ ≤ pathCost E w) ∧
      ∀ w finish, Route E pl start w finish → AtGoal E pl finish = true →
        pathCost E pl'.path_ + GetHeuristic_ E pl last ≤
          pathCost E w + GetHeuristic_ E pl finish ∧
        pathCost E pl'.path_ < pathCost E w + E.STOP_DIST := by
  rcases GetGlobalPlan_cases E fuel pl start angle hset with h | ⟨c, _, _, h⟩ |
    ⟨c, path, _, hgoal, h, hhead, hlast, hchain⟩
  · rw [h] at hplan; cases hplan
  · rw [h] at hplan; cases hplan
    exact absurd rfl hne
  · rw [h] at hplan
    cases hplan
    have hcost : ∃ g, pathCost E path = g ∧
        ∀ w finish, Route E pl start w finish → AtGoal E pl finish = true →
          g + GetHeuristic_ E pl c ≤ pathCost E w + GetHeuristic_ E pl finish := by
      unfold GetGlobalPlan at h
      simp only [hset, Bool.not_true, Bool.false_eq_true, if_false] at h
      cases hloop : searchLoop E pl fuel (initialVars start) with
      | none => rw [hloop] at h; cases h
      | some st =>
        rw [hloop] at h
        simp only at h
        cases hc : st.current with
        | none => rw [hc] at h; cases h
        | some c' =>
          rw [hc] at h
          simp only at h
          cases hg : AtGoal E pl c' with
          | false =>
            rw [hg] at h
            simp only [Bool.not_false, if_true, Except.ok.injEq] at h
            have hp : ([] : List (Vector2f S)) = path := congrArg Planner.path_ h
            rw [← hp] at hlast
            cases hlast
          | true =>
            rw [hg] at h
            simp only [Bool.not_true, Bool.false_eq_true, if_false] at h
            cases hw : walkBack start st.parents fuel c' [c'] with
            | none => rw [hw] at h; cases h
            | some r =>
              rw [hw] at h
              cases r with
              | error bad => cases h
              | ok path' =>
                simp only [Except.ok.injEq] at h
                have hp : path' = path := congrArg Planner.path_ h
                subst hp
                have hc' : c' = c := by
                  have := (walkBack_ok start st.parents fuel c' [] path' hw).2.1
                  rw [hlast] at this
                  simpa using this.symm
                subst hc'
                obtain ⟨g, hlc, hopt⟩ := searchLoop_opt E pl start hnorm fuel
                  (initialVars start) st (SearchInv_initial E pl start)
                  (SearchInv2_initial start _ trivial) (SearchInv3_initial E pl start)
                  (fun c hc => by simp [initialVars] at hc) hloop c' hc hg
                refine ⟨g, ?_, hopt⟩
                rw [walkBack_cost E st.visited st.parents start fuel c' [] path' g hlc hw]
                simp [pathCost]
    obtain ⟨g, hg, hopt⟩ := hcost
    have hroute : Route E pl start path c := ⟨hhead, hlast, hchain⟩
    refine ⟨c, hlast, hgoal, hroute, fun w hw => ?_, fun w finish hw hfin => ?_⟩
    · have := hopt w c hw hgoal
      show pathCost E path ≤ pathCost E w
      linarith
    · have h1 := hopt w finish hw hfin
      have h2 : GetHeuristic_ E pl finish < E.STOP_DIST := by
        unfold AtGoal at hfin
        simp only [hset, Bool.not_true, Bool.false_eq_true, if_false,
          decide_eq_true_eq] at hfin
        unfold GetHeuristic_
        rw [hnorm.symm]
        exact hfin
      have h3 : 0 ≤ GetHeuristic_ E pl c := hnorm.nonneg _
      show pathCost E path + GetHeuristic_ E pl c ≤ _ ∧ pathCost E path < _
      constructor <;> linarith

/-- The bound in exact arithmetic at a concrete input: with the sup norm, beside the wall,
the four-point `Path` from the origin towards `(1, 0)` ends at a point passing the goal
test and is a best route to it. -/
theorem path_is_cheapest_to_its_end_exact_at_wall :
    ∃ last, ([⟨0, 0⟩, ⟨1 / 4, 0⟩, ⟨1 / 2, 0⟩, ⟨3 / 4, 0⟩] : List (Vector2f ℚ)).getLast? =
        some last ∧
      AtGoal envQ (plannerWith wallMap ⟨1, 0⟩) last = true ∧
      Route envQ (plannerWith wallMap ⟨1, 0⟩) ⟨0, 0⟩
        [⟨0, 0⟩, ⟨1 / 4, 0⟩, ⟨1 / 2, 0⟩, ⟨3 / 4, 0⟩] last ∧
      ∀ w, Route envQ (plannerWith wallMap ⟨1, 0⟩) ⟨0, 0⟩ w last →
        pathCost envQ [⟨0, 0⟩, ⟨1 / 4, 0⟩, ⟨1 / 2, 0⟩, ⟨3 / 4, 0⟩] ≤ pathCost envQ w :=
  (path_is_cheapest_to_its_end_exact envQ 10 (plannerWith wallMap ⟨1, 0⟩)
    { plannerWith wallMap ⟨1, 0⟩ with path_ := [⟨0, 0⟩, ⟨1 / 4, 0⟩, ⟨1 / 2, 0⟩, ⟨3 / 4, 0⟩] }
    ⟨0, 0⟩ 0 envQ_NormLaws rfl (by decide!) (by simp)).imp
    (fun _ h => ⟨h.1, h.2.1, h.2.2.1, h.2.2.2.1⟩)

end planner
